import Mathlib

/-!
# BrainyBuddy deterministic time-allocation engine: formal model

The repository is a study-planning product whose core is a deterministic
time-allocation engine (Time Grid, Constraint Evaluator, Allocator, Diff
Engine, Version Ledger, Planner Facade).  The engine proper lives in the
Python backend (`app/services/scheduler/engine.py`, `diff.py`); only its
callers, schemas and review documents are present in the repository
snapshot, so the engine components below are modelled from the
specification.  The mobile offline-sync code (`mobile/lib/db/sync.ts`)
is present and is embedded directly.

Time is measured in whole minutes from a fixed origin instant; weekdays
are indices `0..6` and the weekday of the origin is an explicit input.
-/

namespace BrainyBuddy

/-- Task priority, from `mobile/lib/types.ts` (`Priority`). -/
inductive Priority where
  | low | medium | high | critical
deriving DecidableEq, Repr

/-- Rank used for "priority descending" ordering (critical > high > medium > low). -/
def Priority.rank : Priority → Nat
  | .critical => 3
  | .high => 2
  | .medium => 1
  | .low => 0

/-- Task status, from `mobile/lib/types.ts` (`TaskStatus`). -/
inductive TaskStatus where
  | active | completed | archived
deriving DecidableEq, Repr

/-- A unit of required study work, following the spec data model (§3) and the
fields of `Task` in `mobile/lib/types.ts`.  `due` is an absolute instant in
minutes; `estimatedHours` is nullable. -/
structure Task where
  id : Nat
  due : Nat
  estimatedHours : Option ℚ
  difficulty : Nat
  priority : Priority
  splittable : Bool
  minBlockMinutes : Nat
  maxBlockMinutes : Nat
  status : TaskStatus
deriving DecidableEq, Repr

/-- Scheduling rules, following `SchedulingRules` in `mobile/lib/types.ts`
(hours for sleep / preferred windows, a daily cap, and the slot width). -/
structure SchedulingRules where
  dailyMaxMinutes : Nat
  slotMinutes : Nat
  sleepStartHour : Nat
  sleepEndHour : Nat
  preferredStartHour : Nat
  preferredEndHour : Nat
deriving DecidableEq, Repr

/-- Seven sequences of fixed-width boolean slots, one per day
(`AvailabilityGrid` in `mobile/lib/types.ts` lists the seven days
explicitly; we index them 0..6). -/
structure AvailabilityGrid where
  days : List (List Bool)
deriving DecidableEq, Repr

/-- A scheduled instance: task reference, start/end instants (minutes),
block index within the task, pinned flag (`StudyBlock` in
`mobile/lib/types.ts`, `study_blocks` table in the mobile schema). -/
structure StudyBlock where
  taskId : Nat
  startMin : Nat
  endMin : Nat
  blockIndex : Nat
  pinned : Bool
deriving DecidableEq, Repr

/-- Two blocks overlap when they share some time instant. -/
def StudyBlock.overlaps (a b : StudyBlock) : Prop :=
  ∃ m : Nat, a.startMin ≤ m ∧ m < a.endMin ∧ b.startMin ≤ m ∧ m < b.endMin

/-- Warnings attached to a generate result (§4.3 step 6 of the spec):
`needs-estimate`, `unschedulable`, and the infeasible/partial-allocation
warning of §7, each naming the task. -/
inductive Warning where
  | needsEstimate (taskId : Nat)
  | unschedulable (taskId : Nat)
  | infeasible (taskId : Nat)
deriving DecidableEq, Repr

/-- The task a warning names. -/
def Warning.taskId : Warning → Nat
  | .needsEstimate t => t
  | .unschedulable t => t
  | .infeasible t => t

/-! ## Version Ledger and Planner Facade (spec §4.5, §4.6)

Modelled from the spec: the backend's version ledger
(`app/services/scheduler` + `/api/schedule/confirm`, `/rollback`) is not in
the repository snapshot; `PlanVersion` in `mobile/lib/types.ts` gives the
record shape.  `confirm` appends a version with `version_number =
previous + 1`; `rollback` reads a past version and confirms its block set
forward with trigger `rollback`; a pending preview is superseded by any
newer `generate`. -/

/-- An immutable snapshot in the ledger (`PlanVersion` in
`mobile/lib/types.ts`): version number, trigger reason, full block set. -/
structure PlanVersion where
  versionNumber : Nat
  trigger : String
  blocks : List StudyBlock
deriving DecidableEq, Repr

/-- Errors of the confirm/rollback operations (spec §7 taxonomy). -/
inductive LedgerError where
  | concurrentModification
  | versionNotFound
deriving DecidableEq, Repr

/-- Planner-facade state: the append-only ledger, the active block set, and
the per-user pending-preview slot (preview id plus candidate block set). -/
structure FacadeState where
  versions : List PlanVersion
  active : List StudyBlock
  pending : Option (Nat × List StudyBlock)
  nextPreviewId : Nat
deriving DecidableEq, Repr

/-- The version number the next confirmed version receives: previous + 1
(1 when the ledger is empty). -/
def FacadeState.nextVersionNumber (st : FacadeState) : Nat :=
  match st.versions.getLast? with
  | some v => v.versionNumber + 1
  | none => 1

/-- Modelled from the spec: registering a generate result as the pending
preview (§4.6): a new `generate` always supersedes any prior pending
preview for that user.  Returns the new state and the preview id. -/
def registerPreview (st : FacadeState) (candidate : List StudyBlock) :
    FacadeState × Nat :=
  ({ st with
      pending := some (st.nextPreviewId, candidate)
      nextPreviewId := st.nextPreviewId + 1 },
   st.nextPreviewId)

/-- Modelled from the spec: `confirm` (§4.5) — valid only against the most
recently generated preview; on success it atomically appends a new
`PlanVersion` with `version_number = previous + 1` and makes the candidate
set active; a stale preview id fails with `ConcurrentModificationError`. -/
def confirmOp (st : FacadeState) (previewId : Nat) (trigger : String) :
    FacadeState × Except LedgerError PlanVersion :=
  match st.pending with
  | none => (st, .error .concurrentModification)
  | some (pid, candidate) =>
    if pid = previewId then
      let v : PlanVersion :=
        { versionNumber := st.nextVersionNumber
          trigger := trigger
          blocks := candidate }
      ({ st with
          versions := st.versions ++ [v]
          active := candidate
          pending := none }, .ok v)
    else (st, .error .concurrentModification)

/-- Modelled from the spec: `rollback(targetVersionId)` (§4.5) — reads the
target version's block set, treats it as a new candidate against the
current active set, and confirms it with trigger reason `rollback`;
fails with `VersionNotFoundError` when the target is absent. -/
def rollbackOp (st : FacadeState) (targetVersionNumber : Nat) :
    FacadeState × Except LedgerError PlanVersion :=
  match st.versions.find?
      (fun v => decide (v.versionNumber = targetVersionNumber)) with
  | none => (st, .error .versionNotFound)
  | some target =>
    let reg := registerPreview st target.blocks
    confirmOp reg.1 reg.2 "rollback"

/-- Version numbers in the ledger are strictly increasing in append order. -/
def ledgerSorted (st : FacadeState) : Prop :=
  st.versions.Chain' (fun a b => a.versionNumber < b.versionNumber)

/-! ## Time Grid (spec §4.1)

Modelled from the spec: the backend availability schema
(`app/schemas/availability.py`, "AvailabilityGridSchema (7x96 booleans)" in
the phase-1 review) is not in the snapshot.  A week is 7 × (1440/width)
fixed-width slots; the default width is 15 minutes. -/

/-- Minutes in a day. -/
def minutesPerDay : Nat := 1440

/-- Number of fixed-width slots per day for a given slot width. -/
def slotsPerDay (width : Nat) : Nat := minutesPerDay / width

/-- The default slot width, in minutes (spec §4.1). -/
def defaultSlotMinutes : Nat := 15

/-- A grid is well formed for width `w` when it has exactly seven day
sequences, each of exactly `1440 / w` boolean slots. -/
def AvailabilityGrid.wellFormed (g : AvailabilityGrid) (width : Nat) : Prop :=
  g.days.length = 7 ∧ ∀ d ∈ g.days, d.length = slotsPerDay width

instance (g : AvailabilityGrid) (width : Nat) :
    Decidable (g.wellFormed width) := by
  unfold AvailabilityGrid.wellFormed; infer_instance

/-! ## Difficulty buffer and required minutes (spec §4.3 step 2)

Modelled from the spec: `app/services/scheduler/engine.py` is not in the
snapshot; the phase-1 review records "Difficulty buffer multiplier
(1 + (difficulty-3)*0.1)". -/

/-- `difficultyBuffer(d) = 1 + (d − 3) × 0.1`. -/
def difficultyBuffer (d : Nat) : ℚ := 1 + ((d : ℚ) - 3) * (1 / 10)

/-- Required minutes of a task with a non-null estimate:
`estimated_hours × 60 × difficultyBuffer(difficulty)`. -/
def Task.requiredMinutesQ (t : Task) : Option ℚ :=
  t.estimatedHours.map (fun h => h * 60 * difficultyBuffer t.difficulty)

/-- The whole-minute requirement the allocator works with: the formula
value rounded up to a whole minute.  Since
`60 × difficultyBuffer(d) = 6 × (d + 7)` exactly, the value is computed
directly from the estimate's numerator and denominator; the lemma
`requiredMinutes_eq_ceil` below identifies it with the ceiling of the
§4.3 step 2 formula. -/
def Task.requiredMinutes (t : Task) : Nat :=
  match t.estimatedHours with
  | none => 0
  | some h => (h.num.toNat * (6 * (t.difficulty + 7)) + (h.den - 1)) / h.den

/-! ## Diff Engine (spec §4.4)

Modelled from the spec: `app/services/scheduler/diff.py` is not in the
snapshot; `PlanDiff` / `PlanDiffItem` in `mobile/lib/types.ts` give the
output surface.  Blocks are matched on the key `(task identity, block
index)` and compared on their start/end instants, which is exactly the
content carried per item. -/

/-- The projection of a block that the Diff Engine compares. -/
structure DBlock where
  taskId : Nat
  blockIndex : Nat
  startMin : Nat
  endMin : Nat
deriving DecidableEq, Repr

/-- The matching key: `(task identity, block index)`. -/
def DBlock.key (b : DBlock) : Nat × Nat := (b.taskId, b.blockIndex)

/-- A classified difference (`PlanDiffItem.action` in `mobile/lib/types.ts`:
added / moved / deleted, with old and/or new start-end pairs). -/
inductive DiffItem where
  | added (newBlock : DBlock)
  | deleted (oldBlock : DBlock)
  | moved (oldBlock newBlock : DBlock)
deriving DecidableEq, Repr

/-- The blocks an item mentions (the new block of an `added`, the old block
of a `deleted`, both sides of a `moved`). -/
def DiffItem.blocks : DiffItem → List DBlock
  | .added c => [c]
  | .deleted b => [b]
  | .moved b c => [b, c]

/-- Classify one candidate block against the confirmed set: no key match
is an `added`; a key match with differing start/end is a `moved`; an
identical matched pair yields nothing. -/
def classifyCandidate (confirmed : List DBlock) (c : DBlock) :
    Option DiffItem :=
  match confirmed.find? (fun b => decide (b.key = c.key)) with
  | none => some (DiffItem.added c)
  | some b =>
    if b.startMin = c.startMin ∧ b.endMin = c.endMin then none
    else some (DiffItem.moved b c)

/-- Classify one confirmed block against the candidate set: no key match
is a `deleted`; matched blocks are handled on the candidate side. -/
def classifyConfirmed (candidate : List DBlock) (b : DBlock) :
    Option DiffItem :=
  match candidate.find? (fun c => decide (c.key = b.key)) with
  | none => some (DiffItem.deleted b)
  | some _ => none

/-- Modelled from the spec (§4.4): compare the last-confirmed block set to
a new candidate set.  A candidate block with no key match is `added`; a
confirmed block with no key match is `deleted`; a matched pair whose
start/end differ is `moved`; identical matched pairs are omitted. -/
def computeDiff (confirmed candidate : List DBlock) : List DiffItem :=
  candidate.filterMap (classifyCandidate confirmed) ++
    confirmed.filterMap (classifyConfirmed candidate)

/-- Membership in the symmetric difference of two block sets. -/
def inSymmDiff (confirmed candidate : List DBlock) (x : DBlock) : Prop :=
  (x ∈ candidate ∧ x ∉ confirmed) ∨ (x ∈ confirmed ∧ x ∉ candidate)

/-! ## Mobile offline sync (`mobile/lib/db/sync.ts`)

This component is present in the repository; the definitions below embed
`syncFromServer`'s task upsert loop and `taskToRow` over a list-of-rows
model of the local SQLite `tasks` table. -/

/-- A server task as returned by `api.listTasks()` (`Task` in
`mobile/lib/types.ts`), restricted to the fields `taskToRow` copies. -/
structure ServerTask where
  id : Nat
  userId : Nat
  courseId : Option Nat
  title : String
  description : String
  dueDate : String
  estimatedHours : Option ℚ
  difficulty : Nat
  priority : Priority
  taskType : String
  focusLoad : String
  status : TaskStatus
  splittable : Bool
  minBlockMinutes : Nat
  maxBlockMinutes : Nat
  completedAt : Option String
  createdAt : String
  updatedAt : String
deriving DecidableEq, Repr

/-- A row of the local `tasks` table (`tasks` in the mobile schema):
the server fields plus the sync metadata columns `synced_at` and
`dirty`. -/
structure TaskRow where
  id : Nat
  userId : Nat
  courseId : Option Nat
  title : String
  description : String
  dueDate : String
  estimatedHours : Option ℚ
  difficulty : Nat
  priority : Priority
  taskType : String
  focusLoad : String
  status : TaskStatus
  splittable : Bool
  minBlockMinutes : Nat
  maxBlockMinutes : Nat
  completedAt : Option String
  createdAt : String
  updatedAt : String
  syncedAt : Option String
  dirty : Bool
deriving DecidableEq, Repr

/-- `taskToRow(task, syncedAt)` from `mobile/lib/db/sync.ts`: copies every
server field, stamps `synced_at`, and sets `dirty: false`.  The source row
has no `id` column (the update keeps the existing primary key, the insert
spreads in `task.id`), so the key is passed explicitly. -/
def taskToRow (t : ServerTask) (syncedAt : String) (id : Nat) : TaskRow :=
  { id := id
    userId := t.userId
    courseId := t.courseId
    title := t.title
    description := t.description
    dueDate := t.dueDate
    estimatedHours := t.estimatedHours
    difficulty := t.difficulty
    priority := t.priority
    taskType := t.taskType
    focusLoad := t.focusLoad
    status := t.status
    splittable := t.splittable
    minBlockMinutes := t.minBlockMinutes
    maxBlockMinutes := t.maxBlockMinutes
    completedAt := t.completedAt
    createdAt := t.createdAt
    updatedAt := t.updatedAt
    syncedAt := some syncedAt
    dirty := false }

/-- One iteration of the upsert loop in `syncFromServer`
(`mobile/lib/db/sync.ts`): look up the existing row by id; if it exists
and is dirty, skip; if it exists and is clean, update it in place; else
insert a new row with the server id. -/
def upsertTask (db : List TaskRow) (t : ServerTask) (now : String) :
    List TaskRow :=
  match db.find? (fun r => decide (r.id = t.id)) with
  | some existing =>
    if existing.dirty then db
    else db.map (fun r => if r.id = t.id then taskToRow t now r.id else r)
  | none => db ++ [taskToRow t now t.id]

/-- The task half of `syncFromServer`: upsert every remote task in order. -/
def syncTasksFromServer (db : List TaskRow) (remote : List ServerTask)
    (now : String) : List TaskRow :=
  remote.foldl (fun acc t => upsertTask acc t now) db

/-! ## Allocator (spec §4.1–§4.3)

Modelled from the spec: `app/services/scheduler/engine.py` is not in the
snapshot.  The horizon is a sequence of fixed-width slots walked from
"now" forward; hard constraints are the availability grid, no overlap
with already-placed or pinned blocks, the daily cap, and the sleep
window.  Soft-constraint penalty weights are left open by the spec
(§9, open question), so the model walks earliest-admissible-first, which
realizes the lowest-penalty/earliest-start/task-identity tie-break as a
total order.  The minimum-viable-progress second pass of §4.3 step 5
relaxes only soft constraints; since no soft constraint blocks a
placement in this model, the main pass already places a minimal block
whenever one fits, and a task that ends with zero minutes is
`unschedulable`. -/

/-- Ceiling division. -/
def cdiv (a b : Nat) : Nat := (a + b - 1) / b

/-- The inputs of one `generate` call: tasks, grid, rules, pinned blocks,
the "now" instant (minutes), and the weekday of the time origin. -/
structure GenInput where
  tasks : List Task
  grid : AvailabilityGrid
  rules : SchedulingRules
  pinned : List StudyBlock
  now : Nat
  startDay : Nat
deriving DecidableEq, Repr

/-- The output of one `generate` call: the candidate blocks placed by the
allocator plus the warnings list. -/
structure GenResult where
  blocks : List StudyBlock
  warnings : List Warning
deriving DecidableEq, Repr

/-- The fatal configuration error of spec §7. -/
inductive ConfigError where
  | invalidConfiguration
deriving DecidableEq, Repr

/-- Internal consistency of the scheduling rules (spec §3 invariant and
§7): positive daily cap, a positive slot width dividing the day, and
sleep / preferred windows that each cover less than a full day. -/
def SchedulingRules.valid (r : SchedulingRules) : Bool :=
  decide (0 < r.dailyMaxMinutes) && decide (0 < r.slotMinutes) &&
  decide (r.slotMinutes ∣ minutesPerDay) &&
  decide (r.sleepStartHour < 24) && decide (r.sleepEndHour < 24) &&
  decide (r.sleepStartHour ≠ r.sleepEndHour) &&
  decide (r.preferredStartHour < 24) && decide (r.preferredEndHour < 24) &&
  decide (r.preferredStartHour ≠ r.preferredEndHour)

/-- Boundary validation of a whole `generate` input (spec §7): valid
rules, a grid of the right shape, and `min_block ≤ max_block` on every
task. -/
def configOk (i : GenInput) : Bool :=
  i.rules.valid && decide (i.grid.wellFormed i.rules.slotMinutes) &&
  i.tasks.all (fun t => decide (t.minBlockMinutes ≤ t.maxBlockMinutes))

/-- Whether an hour of the day falls inside the sleep window; the window
wraps past midnight when its start hour is after its end hour. -/
def inSleepWindow (r : SchedulingRules) (hour : Nat) : Bool :=
  if r.sleepStartHour ≤ r.sleepEndHour then
    decide (r.sleepStartHour ≤ hour ∧ hour < r.sleepEndHour)
  else
    decide (r.sleepStartHour ≤ hour ∨ hour < r.sleepEndHour)

/-- The calendar day (counted from the time origin) containing slot `s`. -/
def slotAbsDay (i : GenInput) (s : Nat) : Nat :=
  s * i.rules.slotMinutes / minutesPerDay

/-- The weekday (0..6) of slot `s`. -/
def slotWeekday (i : GenInput) (s : Nat) : Nat :=
  (i.startDay + slotAbsDay i s) % 7

/-- The index of slot `s` within its day's grid sequence. -/
def slotIndexInDay (i : GenInput) (s : Nat) : Nat :=
  s * i.rules.slotMinutes % minutesPerDay / i.rules.slotMinutes

/-- The hour of the day at which slot `s` starts. -/
def slotHourOfDay (i : GenInput) (s : Nat) : Nat :=
  s * i.rules.slotMinutes % minutesPerDay / 60

/-- Whether the availability grid marks slot `s` available on its
weekday. -/
def gridAvailable (i : GenInput) (s : Nat) : Bool :=
  (i.grid.days.getD (slotWeekday i s) []).getD (slotIndexInDay i s) false

/-- Whether the time range of slot `s` intersects some pinned block. -/
def slotHitsPinned (i : GenInput) (s : Nat) : Bool :=
  i.pinned.any (fun b =>
    decide (s * i.rules.slotMinutes < b.endMin) &&
    decide (b.startMin < (s + 1) * i.rules.slotMinutes))

/-- The allocation-independent hard constraints on slot `s`: grid
availability, outside the sleep window, and no intersection with a
pinned block. -/
def slotFree (i : GenInput) (s : Nat) : Bool :=
  gridAvailable i s && !inSleepWindow i.rules (slotHourOfDay i s) &&
  !slotHitsPinned i s

/-- How many already-occupied slots share slot `s`'s calendar day. -/
def sameDayCount (i : GenInput) (occ : List Nat) (s : Nat) : Nat :=
  (occ.filter (fun u => decide (slotAbsDay i u = slotAbsDay i s))).length

/-- The daily-cap hard constraint: occupying slot `s` keeps that day's
study minutes within the configured daily maximum. -/
def dayLoadOk (i : GenInput) (occ : List Nat) (s : Nat) : Bool :=
  decide (i.rules.slotMinutes * (sameDayCount i occ s + 1) ≤
    i.rules.dailyMaxMinutes)

/-- The Constraint Evaluator's hard-constraint verdict for slot `s`
against the current partial allocation `occ` (spec §4.2). -/
def admissible (i : GenInput) (occ : List Nat) (s : Nat) : Bool :=
  slotFree i s && !(decide (s ∈ occ)) && dayLoadOk i occ s

/-- The planning-horizon end (spec §4.1): fourteen days past the last
active-task due instant. -/
def horizonEnd (i : GenInput) : Nat :=
  14 * minutesPerDay +
    i.tasks.foldl
      (fun m t => if t.status = TaskStatus.active then max m t.due else m) 0

/-- The ordered slot sequence a task may be placed into: from "now"
rounded up to the next slot boundary, up to the earlier of the task's
due instant and the horizon end. -/
def taskSlots (i : GenInput) (t : Task) : List Nat :=
  let w := i.rules.slotMinutes
  let lo := cdiv i.now w
  let hi := min t.due (horizonEnd i) / w
  List.range' lo (hi - lo)

/-- Length of the admissible run continuing at expected slot value `e`
through the head of the remaining slot sequence. -/
def admRunFrom (i : GenInput) (occ : List Nat) : List Nat → Nat → Nat
  | [], _ => 0
  | s :: rest, e =>
    if s = e ∧ admissible i occ s = true then 1 + admRunFrom i occ rest (s + 1)
    else 0

/-- Intermediate state of one task's placement walk: blocks placed so
far, the updated occupied-slot list, and the minutes still required. -/
structure PlaceState where
  blocks : List StudyBlock
  occ : List Nat
  remaining : Nat
deriving DecidableEq, Repr

/-- The slot indices a block's time range touches. -/
def blockSlots (w : Nat) (b : StudyBlock) : List Nat :=
  List.range' (b.startMin / w) (cdiv (b.endMin - b.startMin) w)

/-- One task's placement walk (spec §4.3 steps 4–5): walk the slot
sequence in order; at each admissible slot, measure the contiguous
admissible run, cut a block of `min(remaining, max-block, run)` minutes
when that is at least the minimum block size, mark its slots occupied,
and continue until the requirement is exhausted or the sequence ends. -/
def placeForTask (i : GenInput) (tid eMin eMax : Nat) :
    List Nat → List Nat → Nat → Nat → PlaceState
  | [], occ, remaining, _ => ⟨[], occ, remaining⟩
  | s :: rest, occ, remaining, bidx =>
    if remaining < eMin ∨ remaining = 0 then ⟨[], occ, remaining⟩
    else if admissible i occ s = true then
      let w := i.rules.slotMinutes
      let run := 1 + admRunFrom i occ rest (s + 1)
      let len := min remaining (min eMax (run * w))
      if eMin ≤ len ∧ 0 < len then
        let used := cdiv len w
        let blk : StudyBlock :=
          ⟨tid, s * w, s * w + len, bidx, false⟩
        let res := placeForTask i tid eMin eMax rest
          (occ ++ List.range' s used) (remaining - len) (bidx + 1)
        ⟨blk :: res.blocks, res.occ, res.remaining⟩
      else placeForTask i tid eMin eMax rest occ remaining bidx
    else placeForTask i tid eMin eMax rest occ remaining bidx

/-- Result of allocating one task: its blocks, the updated occupied
slots, and its warnings. -/
structure TaskAllocResult where
  blocks : List StudyBlock
  occ : List Nat
  warnings : List Warning
deriving DecidableEq, Repr

/-- Allocate one task (spec §4.3): a task with no estimate is flagged
`needs-estimate` and skipped; otherwise its required minutes are placed
(one contiguous full-size block when non-splittable), and a task left
with unplaced minutes is flagged `unschedulable` (nothing placed) or
infeasible (partial allocation). -/
def allocOneTask (i : GenInput) (occ : List Nat) (t : Task) :
    TaskAllocResult :=
  match t.estimatedHours with
  | none => ⟨[], occ, [Warning.needsEstimate t.id]⟩
  | some _ =>
    let req := t.requiredMinutes
    let eMin := if t.splittable then t.minBlockMinutes else req
    let eMax := if t.splittable then t.maxBlockMinutes else req
    let res := placeForTask i t.id eMin eMax (taskSlots i t) occ req 0
    let ws :=
      if res.remaining = 0 then []
      else if res.remaining = req then [Warning.unschedulable t.id]
      else [Warning.infeasible t.id]
    ⟨res.blocks, res.occ, ws⟩

/-- The earliest-deadline-first-with-priority total order of spec §4.3
step 3: due ascending, then priority descending, then task id. -/
def taskLE (a b : Task) : Bool :=
  decide (a.due < b.due) ||
  (decide (a.due = b.due) &&
    (decide (b.priority.rank < a.priority.rank) ||
     (decide (a.priority.rank = b.priority.rank) && decide (a.id ≤ b.id))))

/-- Insertion into a list sorted by `taskLE`. -/
def insertTask (t : Task) : List Task → List Task
  | [] => [t]
  | u :: us => if taskLE t u then t :: u :: us else u :: insertTask t us

/-- Stable sort of the task list by the total order of §4.3 step 3. -/
def sortTasks (ts : List Task) : List Task :=
  ts.foldr insertTask []

/-- Allocate every task in order, threading the occupied-slot list. -/
def allocateAll (i : GenInput) : List Task → List Nat → TaskAllocResult
  | [], occ => ⟨[], occ, []⟩
  | t :: ts, occ =>
    let r1 := allocOneTask i occ t
    let r2 := allocateAll i ts r1.occ
    ⟨r1.blocks ++ r2.blocks, r2.occ, r1.warnings ++ r2.warnings⟩

/-- Modelled from the spec: the `generate` operation (§4.3, §7) —
fail fast with `InvalidConfigurationError` when the configuration is
internally contradictory, otherwise allocate the active tasks in the
deterministic order and return the candidate blocks plus warnings. -/
def generate (i : GenInput) : Except ConfigError GenResult :=
  if configOk i then
    let active := sortTasks
      (i.tasks.filter (fun t => decide (t.status = TaskStatus.active)))
    let res := allocateAll i active []
    .ok ⟨res.blocks, res.warnings⟩
  else .error ConfigError.invalidConfiguration

/-- The full candidate block set a confirm would persist: the pinned
occupants together with the allocator-placed blocks. -/
def candidateSet (i : GenInput) (r : GenResult) : List StudyBlock :=
  i.pinned ++ r.blocks

/-- Total minutes covered by a list of blocks. -/
def sumLens (bs : List StudyBlock) : Nat :=
  (bs.map (fun b => b.endMin - b.startMin)).sum

/-- Two blocks touch disjoint sets of slots. -/
def slotDisjoint (w : Nat) (a b : StudyBlock) : Prop :=
  ∀ u, u ∈ blockSlots w a → u ∉ blockSlots w b

/-- The shape invariant of every allocator-placed block: non-pinned, a
nonempty interval starting on a slot boundary, contained in its touched
slots, all of which satisfy the static hard constraints. -/
def placedBlockOk (i : GenInput) (b : StudyBlock) : Prop :=
  b.pinned = false ∧ b.startMin < b.endMin ∧
  ∃ s k, 0 < k ∧ b.startMin = s * i.rules.slotMinutes ∧
    blockSlots i.rules.slotMinutes b = List.range' s k ∧
    b.endMin ≤ (s + k) * i.rules.slotMinutes ∧
    ∀ u ∈ List.range' s k, slotFree i u = true

/-! ## Concrete example inputs

Small inputs used to exercise the definitions on closed instances. -/

/-- A fully available 7 × 96 grid. -/
def exGrid : AvailabilityGrid := ⟨List.replicate 7 (List.replicate 96 true)⟩

/-- A valid rule set at the default slot width. -/
def exRules : SchedulingRules :=
  { dailyMaxMinutes := 600, slotMinutes := 15, sleepStartHour := 22,
    sleepEndHour := 23, preferredStartHour := 9, preferredEndHour := 18 }

/-- One active splittable task: one estimated hour, difficulty 3. -/
def exTask : Task :=
  { id := 1, due := 180, estimatedHours := some 1, difficulty := 3,
    priority := Priority.medium, splittable := true, minBlockMinutes := 30,
    maxBlockMinutes := 120, status := TaskStatus.active }

/-- A well-formed generate input over the example task. -/
def exInput : GenInput :=
  { tasks := [exTask], grid := exGrid, rules := exRules, pinned := [],
    now := 0, startDay := 0 }

/-- The generate result on the example input. -/
def exResult : GenResult := ((generate exInput).toOption).getD ⟨[], []⟩

/-- The example input with a contradictory task configuration
(`min_block > max_block`). -/
def exBadInput : GenInput :=
  { exInput with
      tasks := [{ exTask with minBlockMinutes := 120, maxBlockMinutes := 30 }] }

/-- A first confirmed version for the ledger examples. -/
def exVersion1 : PlanVersion :=
  { versionNumber := 1, trigger := "manual_replan",
    blocks := [⟨1, 0, 60, 0, false⟩] }

/-- A second confirmed version with a different block set. -/
def exVersion2 : PlanVersion :=
  { versionNumber := 2, trigger := "manual_replan",
    blocks := [⟨1, 60, 120, 0, false⟩] }

/-- A facade state holding two confirmed versions and no pending preview. -/
def exFacade : FacadeState :=
  { versions := [exVersion1, exVersion2], active := exVersion2.blocks,
    pending := none, nextPreviewId := 5 }

/-- The state after rolling the example facade back to version 1. -/
def exRollback : FacadeState × Except LedgerError PlanVersion :=
  rollbackOp exFacade 1

/-- The version the example rollback produced. -/
def exRollbackVersion : PlanVersion :=
  match exRollback.2 with
  | .ok v => v
  | .error _ => ⟨0, "", []⟩

/-- A dirty local task row (unsaved local edit). -/
def exRowDirty : TaskRow :=
  { id := 1, userId := 1, courseId := none, title := "local edit",
    description := "", dueDate := "2026-10-20", estimatedHours := some 2,
    difficulty := 3, priority := Priority.medium, taskType := "other",
    focusLoad := "medium", status := TaskStatus.active, splittable := true,
    minBlockMinutes := 15, maxBlockMinutes := 120, completedAt := none,
    createdAt := "2026-10-01", updatedAt := "2026-10-10",
    syncedAt := some "2026-10-05", dirty := true }

/-- A clean local task row. -/
def exRowClean : TaskRow :=
  { exRowDirty with id := 2, title := "clean", dirty := false }

/-- The example local task table. -/
def exDb : List TaskRow := [exRowDirty, exRowClean]

/-- A server copy of the dirty row's task, with different content. -/
def exServerTask : ServerTask :=
  { id := 1, userId := 1, courseId := none, title := "server title",
    description := "", dueDate := "2026-10-21", estimatedHours := some 3,
    difficulty := 4, priority := Priority.high, taskType := "other",
    focusLoad := "medium", status := TaskStatus.active, splittable := true,
    minBlockMinutes := 15, maxBlockMinutes := 120, completedAt := none,
    createdAt := "2026-10-01", updatedAt := "2026-10-11" }

/-- A server task absent from the local table. -/
def exServerTaskNew : ServerTask := { exServerTask with id := 3 }

/-- The example confirmed block set for the diff examples. -/
def exConfirmedD : List DBlock := [⟨1, 0, 0, 60⟩, ⟨2, 0, 120, 180⟩]

/-- The example candidate block set: task 1 unchanged, task 2 moved,
task 3 added. -/
def exCandidateD : List DBlock := [⟨1, 0, 0, 60⟩, ⟨2, 0, 150, 210⟩, ⟨3, 0, 300, 330⟩]

/-! ## Arithmetic helper lemmas -/

theorem le_cdiv_mul (a b : Nat) (hb : 0 < b) : a ≤ cdiv a b * b := by
  have h := (Nat.div_lt_iff_lt_mul hb).mp (Nat.lt_succ_self ((a + b - 1) / b))
  have hexp : ((a + b - 1) / b + 1) * b = (a + b - 1) / b * b + b := by ring
  rw [hexp] at h
  unfold cdiv
  omega

theorem cdiv_mul_lt_add (a b : Nat) (hb : 0 < b) : cdiv a b * b < a + b := by
  have h := Nat.div_mul_le_self (a + b - 1) b
  unfold cdiv
  omega

theorem cdiv_le_of_le_mul {a b c : Nat} (hb : 0 < b) (h : a ≤ c * b) :
    cdiv a b ≤ c := by
  have h2 : a + b - 1 < (c + 1) * b := by
    have : (c + 1) * b = c * b + b := by ring
    omega
  have := (Nat.div_lt_iff_lt_mul hb).mpr h2
  unfold cdiv
  omega

theorem cdiv_pos {a b : Nat} (hb : 0 < b) (ha : 0 < a) : 0 < cdiv a b := by
  have h : b ≤ a + b - 1 := by omega
  have := (Nat.one_le_div_iff hb).mpr h
  unfold cdiv
  omega

theorem div_mem_range' {w s k m : Nat} (hw : 0 < w) (h1 : s * w ≤ m)
    (h2 : m < (s + k) * w) : m / w ∈ List.range' s k := by
  rw [List.mem_range'_1]
  exact ⟨(Nat.le_div_iff_mul_le hw).mpr h1, (Nat.div_lt_iff_lt_mul hw).mpr h2⟩

theorem div_interval {w m : Nat} (hw : 0 < w) :
    m / w * w ≤ m ∧ m < (m / w + 1) * w :=
  ⟨Nat.div_mul_le_self _ _, (Nat.div_lt_iff_lt_mul hw).mp (Nat.lt_succ_self _)⟩

/-! ## Claim theorems: time grid, determinism, configuration errors -/

/-- C9: the availability grid represents a week as 7 × (1440 / slot-width)
fixed-width boolean slots, so at the default 15-minute slot width each of
the seven day sequences has exactly 96 slots. -/
theorem grid_week_shape (g : AvailabilityGrid)
    (h : g.wellFormed defaultSlotMinutes) :
    slotsPerDay defaultSlotMinutes = 96 ∧ g.days.length = 7 ∧
      ∀ d ∈ g.days, d.length = 96 := by
  obtain ⟨h7, hlen⟩ := h
  refine ⟨by decide, h7, fun d hd => ?_⟩
  have := hlen d hd
  simpa [slotsPerDay, defaultSlotMinutes, minutesPerDay] using this

/-- Witness for C9 on the concrete fully-available grid. -/
theorem grid_week_shape_witness :
    exGrid.wellFormed defaultSlotMinutes ∧
      (slotsPerDay defaultSlotMinutes = 96 ∧ exGrid.days.length = 7 ∧
        ∀ d ∈ exGrid.days, d.length = 96) :=
  ⟨by decide, grid_week_shape exGrid (by decide)⟩

/-- C2: `generate` is a pure function of its input record (tasks, grid,
rules, pinned blocks, "now"): two calls on identical inputs return
identical candidate blocks and warnings. -/
theorem generate_deterministic (i1 i2 : GenInput) (h : i1 = i2) :
    generate i1 = generate i2 := by rw [h]

/-- Witness for C2 at the concrete example input. -/
theorem generate_deterministic_witness :
    generate exInput = generate exInput :=
  generate_deterministic exInput exInput rfl

/-- C6: `generate` rejects the whole call with
`InvalidConfigurationError` exactly when the configuration is internally
contradictory, and on every valid configuration it returns a result
(allocation-feasibility problems surface as warnings in that result,
never as an exception). -/
theorem generate_invalid_config_iff (i : GenInput) :
    (generate i = Except.error ConfigError.invalidConfiguration ↔
      configOk i = false) ∧
    (configOk i = true → ∃ r, generate i = Except.ok r) := by
  unfold generate
  cases hc : configOk i <;> simp

/-- Witness for C6: a contradictory configuration is rejected and a valid
one produces a result. -/
theorem generate_invalid_config_iff_witness :
    generate exBadInput = Except.error ConfigError.invalidConfiguration ∧
      ∃ r, generate exInput = Except.ok r :=
  ⟨(generate_invalid_config_iff exBadInput).1.mpr (by decide),
   (generate_invalid_config_iff exInput).2 (by decide)⟩

/-- C7: `confirm` succeeds only against the most recently generated
preview: it returns a version exactly when the pending preview carries
the given preview id; a stale id — in particular one superseded by a
newer `generate` — fails with `ConcurrentModificationError` and leaves
the facade state (ledger and active set) unchanged. -/
theorem confirm_stale_rejected (st : FacadeState) (pid : Nat) (tr : String) :
    ((∃ v, (confirmOp st pid tr).2 = Except.ok v) ↔
      ∃ cand, st.pending = some (pid, cand)) ∧
    ((∀ cand, st.pending ≠ some (pid, cand)) →
      confirmOp st pid tr = (st, Except.error LedgerError.concurrentModification)) ∧
    (∀ c1 c2,
      confirmOp (registerPreview (registerPreview st c1).1 c2).1
        (registerPreview st c1).2 tr =
      ((registerPreview (registerPreview st c1).1 c2).1,
        Except.error LedgerError.concurrentModification)) := by
  refine ⟨?_, ?_, ?_⟩
  · unfold confirmOp
    match hp : st.pending with
    | none => simp
    | some (p, cand) =>
      by_cases hpe : p = pid <;> simp [hpe]
  · intro hstale
    unfold confirmOp
    match hp : st.pending with
    | none => rfl
    | some (p, cand) =>
      have : p ≠ pid := fun he => hstale cand (by rw [hp, he])
      simp [this]
  · intro c1 c2
    unfold confirmOp registerPreview
    simp

/-- Witness for C7: confirming with no pending preview is rejected and
leaves the example facade state unchanged. -/
theorem confirm_stale_rejected_witness :
    confirmOp exFacade 3 "manual_replan" =
      (exFacade, Except.error LedgerError.concurrentModification) :=
  (confirm_stale_rejected exFacade 3 "manual_replan").2.1
    (fun cand => by simp [exFacade])

/-- Appending a version whose number exceeds the last keeps the ledger
strictly increasing. -/
theorem chain_append_last {l : List PlanVersion} {v : PlanVersion}
    (hl : l.Chain' (fun a b => a.versionNumber < b.versionNumber))
    (hlast : ∀ x, l.getLast? = some x → x.versionNumber < v.versionNumber) :
    (l ++ [v]).Chain' (fun a b => a.versionNumber < b.versionNumber) := by
  rw [List.chain'_append]
  refine ⟨hl, List.chain'_singleton v, fun x hx y hy => ?_⟩
  simp only [List.head?_cons, Option.mem_def, Option.some.injEq] at hy
  subst hy
  exact hlast x hx

/-- C4: `rollback(target)` never deletes or mutates an existing version:
it appends one new version whose block set equals the target's
historical snapshot, version numbers stay strictly increasing (so none
is reused), and rolling back to the same target again appends a second
version content-identical to the first while their version numbers
differ. -/
theorem rollback_append_only (st : FacadeState) (target : Nat)
    (st1 : FacadeState) (v1 : PlanVersion)
    (hsorted : ledgerSorted st)
    (h : rollbackOp st target = (st1, Except.ok v1)) :
    st1.versions = st.versions ++ [v1] ∧
    (∃ tv ∈ st.versions, tv.versionNumber = target ∧ v1.blocks = tv.blocks) ∧
    ledgerSorted st1 ∧
    (∃ st2 v2, rollbackOp st1 target = (st2, Except.ok v2) ∧
      v2.blocks = v1.blocks ∧ v1.versionNumber ≠ v2.versionNumber ∧
      st2.versions = st1.versions ++ [v2]) := by
  unfold rollbackOp at h
  match hf : st.versions.find? (fun v => decide (v.versionNumber = target)) with
  | none =>
    rw [hf] at h
    simp at h
  | some tv =>
    rw [hf] at h
    unfold confirmOp registerPreview at h
    simp only [FacadeState.nextVersionNumber, if_true, eq_self_iff_true,
      Prod.mk.injEq] at h
    obtain ⟨hst1, hv1⟩ := h
    have hv1' : v1 = { versionNumber := match st.versions.getLast? with
                        | some v => v.versionNumber + 1
                        | none => 1,
                       trigger := "rollback", blocks := tv.blocks } := by
      cases hv1; rfl
    have hmem : tv ∈ st.versions := List.mem_of_find?_eq_some hf
    have hkey : tv.versionNumber = target := by
      have := List.find?_some hf
      simpa using this
    have hversions : st1.versions = st.versions ++ [v1] := by
      rw [← hst1, hv1']
    have hblocks : v1.blocks = tv.blocks := by rw [hv1']
    have hsorted1 : ledgerSorted st1 := by
      unfold ledgerSorted
      rw [hversions]
      refine chain_append_last hsorted (fun x hx => ?_)
      rw [hv1']
      simp only [hx]
      omega
    refine ⟨hversions, ⟨tv, hmem, hkey, hblocks⟩, hsorted1, ?_⟩
    have hf1 : st1.versions.find? (fun v => decide (v.versionNumber = target)) =
        some tv := by
      rw [hversions]
      simp [List.find?_append, hf]
    have hnext1 : st1.versions.getLast? = some v1 := by
      rw [hversions]
      simp
    have hcomp : rollbackOp st1 target =
        ({ versions :=
            st1.versions ++ [⟨v1.versionNumber + 1, "rollback", tv.blocks⟩],
           active := tv.blocks, pending := none,
           nextPreviewId := st1.nextPreviewId + 1 },
         Except.ok ⟨v1.versionNumber + 1, "rollback", tv.blocks⟩) := by
      unfold rollbackOp
      rw [hf1]
      unfold confirmOp registerPreview
      simp only [FacadeState.nextVersionNumber, hnext1]
      simp
    refine ⟨_, _, hcomp, hblocks.symm, by simp, rfl⟩

/-- Witness for C4 at a concrete two-version ledger. -/
theorem rollback_append_only_witness :
    ledgerSorted exFacade ∧
      (exRollback.1.versions = exFacade.versions ++ [exRollbackVersion] ∧
      (∃ tv ∈ exFacade.versions, tv.versionNumber = 1 ∧
        exRollbackVersion.blocks = tv.blocks) ∧
      ledgerSorted exRollback.1 ∧
      (∃ st2 v2, rollbackOp exRollback.1 1 = (st2, Except.ok v2) ∧
        v2.blocks = exRollbackVersion.blocks ∧
        exRollbackVersion.versionNumber ≠ v2.versionNumber ∧
        st2.versions = exRollback.1.versions ++ [v2])) :=
  ⟨by unfold ledgerSorted exFacade exVersion1 exVersion2; simp,
   rollback_append_only exFacade 1 exRollback.1 exRollbackVersion
     (by unfold ledgerSorted exFacade exVersion1 exVersion2; simp) rfl⟩

/-- The numerator/denominator ceiling computation agrees with the exact
rational ceiling. -/
theorem cdiv_num_eq_ceil (h : ℚ) (m : Nat) :
    (h.num.toNat * m + (h.den - 1)) / h.den = (⌈h * (m : ℚ)⌉).toNat := by
  have hden : 0 < h.den := h.pos
  rcases Nat.eq_zero_or_pos m with hm | hm
  · subst hm
    simp [Nat.div_eq_of_lt (show h.den - 1 < h.den by omega)]
  by_cases hn : h.num ≤ 0
  · have h0 : h.num.toNat = 0 := by omega
    have hq : h ≤ 0 := Rat.num_nonpos.mp hn
    have hqm : h * (m : ℚ) ≤ 0 :=
      mul_nonpos_iff.mpr (Or.inr ⟨hq, by positivity⟩)
    have hceil : ⌈h * (m : ℚ)⌉ ≤ 0 := Int.ceil_le.mpr (by simpa using hqm)
    rw [h0]
    simp [Nat.div_eq_of_lt (show h.den - 1 < h.den by omega)]
    omega
  push_neg at hn
  have hnpos : 0 < h.num.toNat := by omega
  set n := h.num.toNat with hndef
  set d := h.den with hddef
  have hcast : ((n : ℤ) : ℚ) = (h.num : ℚ) := by
    rw [hndef]
    exact_mod_cast congrArg (Int.cast : ℤ → ℚ) (Int.toNat_of_nonneg (le_of_lt hn))
  have hval : h * (m : ℚ) = ((n * m : ℕ) : ℚ) / ((d : ℕ) : ℚ) := by
    rw [← Rat.num_div_den h]
    push_cast [← hcast]
    field_simp
  have hdq : (0 : ℚ) < ((d : ℕ) : ℚ) := by exact_mod_cast hden
  set N := cdiv (n * m) d with hNdef
  have hNpos : 0 < N := cdiv_pos hden (by positivity)
  have hupper : h * (m : ℚ) ≤ (N : ℚ) := by
    rw [hval, div_le_iff₀ hdq]
    exact_mod_cast le_cdiv_mul (n * m) d hden
  have hlower : (N : ℚ) - 1 < h * (m : ℚ) := by
    have hnat : (N - 1) * d < n * m := by
      have h1 := cdiv_mul_lt_add (n * m) d hden
      rw [← hNdef] at h1
      have h2 : d ≤ N * d := Nat.le_mul_of_pos_left d hNpos
      rw [Nat.sub_one_mul]
      omega
    rw [hval, lt_div_iff₀ hdq]
    have : ((N : ℚ) - 1) = ((N - 1 : ℕ) : ℚ) := by
      push_cast [Nat.cast_sub hNpos]
      ring
    rw [this]
    exact_mod_cast hnat
  have hceil : ⌈h * (m : ℚ)⌉ = (N : ℤ) :=
    Int.ceil_eq_iff.mpr ⟨by exact_mod_cast hlower, hupper⟩
  have hgoal : (n * m + (d - 1)) / d = N := by
    rw [hNdef]
    unfold cdiv
    congr 1
    omega
  rw [hgoal, hceil]
  simp

/-- C8: for a task with a non-null estimate the required minutes are
`estimated_hours × 60 × (1 + (difficulty − 3) × 0.1)` — difficulty 5
scales by 6/5 (a 20% buffer) and difficulty 1 by 4/5 (20% removed) —
and the allocator's whole-minute requirement is that value rounded up. -/
theorem required_minutes_formula (t : Task) (h : ℚ)
    (hh : t.estimatedHours = some h) :
    t.requiredMinutesQ =
      some (h * 60 * (1 + ((t.difficulty : ℚ) - 3) * (1 / 10))) ∧
    t.requiredMinutes = (⌈h * 60 * difficultyBuffer t.difficulty⌉).toNat ∧
    difficultyBuffer 5 = 6 / 5 ∧ difficultyBuffer 1 = 4 / 5 := by
  refine ⟨?_, ?_, by norm_num [difficultyBuffer], by norm_num [difficultyBuffer]⟩
  · unfold Task.requiredMinutesQ difficultyBuffer
    rw [hh]
    rfl
  · have key : h * 60 * difficultyBuffer t.difficulty =
        h * ((6 * (t.difficulty + 7) : ℕ) : ℚ) := by
      unfold difficultyBuffer
      push_cast
      ring
    unfold Task.requiredMinutes
    rw [hh, key]
    exact cdiv_num_eq_ceil h (6 * (t.difficulty + 7))

/-- Witness for C8 at the concrete example task (1 hour, difficulty 3). -/
theorem required_minutes_formula_witness :
    exTask.estimatedHours = some 1 ∧
      (exTask.requiredMinutesQ =
        some (1 * 60 * (1 + ((exTask.difficulty : ℚ) - 3) * (1 / 10))) ∧
      exTask.requiredMinutes =
        (⌈(1 : ℚ) * 60 * difficultyBuffer exTask.difficulty⌉).toNat ∧
      difficultyBuffer 5 = 6 / 5 ∧ difficultyBuffer 1 = 4 / 5) :=
  ⟨rfl, required_minutes_formula exTask 1 rfl⟩

/-! ## Offline-sync lemmas (C10) -/

theorem upsertTask_eq_some {db : List TaskRow} {t : ServerTask} {now : String}
    {ex : TaskRow} (hf : db.find? (fun r => decide (r.id = t.id)) = some ex) :
    upsertTask db t now =
      if ex.dirty then db
      else db.map (fun r => if r.id = t.id then taskToRow t now r.id else r) := by
  unfold upsertTask
  rw [hf]

theorem upsertTask_eq_none {db : List TaskRow} {t : ServerTask} {now : String}
    (hf : db.find? (fun r => decide (r.id = t.id)) = none) :
    upsertTask db t now = db ++ [taskToRow t now t.id] := by
  unfold upsertTask
  rw [hf]

theorem upsert_map_id (db : List TaskRow) (t : ServerTask) (now : String) :
    (upsertTask db t now).map (fun r => r.id) = db.map (fun r => r.id) ∨
    ((upsertTask db t now).map (fun r => r.id) =
        db.map (fun r => r.id) ++ [t.id] ∧ ∀ r ∈ db, r.id ≠ t.id) := by
  rcases hf : db.find? (fun r => decide (r.id = t.id)) with _ | ex
  · right
    rw [upsertTask_eq_none hf]
    refine ⟨by simp [taskToRow], fun r hr => ?_⟩
    have := List.find?_eq_none.mp hf r hr
    simpa using this
  · left
    rw [upsertTask_eq_some hf]
    by_cases hd : ex.dirty
    · simp [hd]
    · rw [if_neg hd, List.map_map]
      apply List.map_congr_left
      intro r _
      by_cases hid : r.id = t.id
      · simp [hid, taskToRow]
      · simp [hid]

theorem upsert_nodup {db : List TaskRow} (t : ServerTask) (now : String)
    (h : (db.map (fun r => r.id)).Nodup) :
    ((upsertTask db t now).map (fun r => r.id)).Nodup := by
  rcases upsert_map_id db t now with heq | ⟨heq, hnew⟩
  · rw [heq]; exact h
  · rw [heq]
    rw [List.nodup_append]
    refine ⟨h, List.nodup_singleton _, fun x hx => ?_⟩
    obtain ⟨r, hr, hid⟩ := List.mem_map.mp hx
    simp only [List.mem_singleton]
    rw [← hid]
    exact hnew r hr

theorem upsert_keeps_dirty {db : List TaskRow} {r : TaskRow} (t : ServerTask)
    (now : String) (hnd : (db.map (fun r => r.id)).Nodup)
    (hr : r ∈ db) (hdirty : r.dirty = true) :
    r ∈ upsertTask db t now := by
  rcases hf : db.find? (fun x => decide (x.id = t.id)) with _ | ex
  · rw [upsertTask_eq_none hf]
    exact List.mem_append_left _ hr
  · rw [upsertTask_eq_some hf]
    by_cases hd : ex.dirty
    · rw [if_pos hd]
      exact hr
    · rw [if_neg hd]
      by_cases hid : r.id = t.id
      · have hexmem : ex ∈ db := List.mem_of_find?_eq_some hf
        have hexid : ex.id = t.id := by
          have := List.find?_some hf
          simpa using this
        have hre : r = ex :=
          List.inj_on_of_nodup_map hnd hr hexmem (by rw [hid, hexid])
        rw [hre] at hdirty
        rw [hdirty] at hd
        exact absurd rfl hd
      · exact List.mem_map.mpr ⟨r, hr, by simp [hid]⟩

theorem upsert_new_clean {db : List TaskRow} {r : TaskRow} (t : ServerTask)
    (now : String) (hr : r ∈ upsertTask db t now) :
    r ∈ db ∨ r.dirty = false := by
  rcases hf : db.find? (fun x => decide (x.id = t.id)) with _ | ex
  · rw [upsertTask_eq_none hf] at hr
    rcases List.mem_append.mp hr with h | h
    · exact Or.inl h
    · right
      rw [List.mem_singleton.mp h]
      rfl
  · rw [upsertTask_eq_some hf] at hr
    by_cases hd : ex.dirty
    · rw [if_pos hd] at hr
      exact Or.inl hr
    · rw [if_neg hd] at hr
      obtain ⟨r0, hr0, heq⟩ := List.mem_map.mp hr
      by_cases hid : r0.id = t.id
      · right
        rw [← heq]
        simp [hid, taskToRow]
      · left
        rw [if_neg hid] at heq
        rw [← heq]
        exact hr0

theorem syncTasks_spec (remote : List ServerTask) : ∀ (db : List TaskRow)
    (now : String), (db.map (fun r => r.id)).Nodup →
    ((syncTasksFromServer db remote now).map (fun r => r.id)).Nodup ∧
    (∀ r ∈ db, r.dirty = true → r ∈ syncTasksFromServer db remote now) ∧
    (∀ r ∈ syncTasksFromServer db remote now, r ∈ db ∨ r.dirty = false) := by
  induction remote with
  | nil =>
    intro db now h
    exact ⟨h, fun r hr _ => hr, fun r hr => Or.inl hr⟩
  | cons t ts ih =>
    intro db now h
    have hstep : syncTasksFromServer db (t :: ts) now =
        syncTasksFromServer (upsertTask db t now) ts now := rfl
    obtain ⟨ihn, ihd, ihc⟩ := ih (upsertTask db t now) now (upsert_nodup t now h)
    refine ⟨by rw [hstep]; exact ihn, ?_, ?_⟩
    · intro r hr hdirty
      rw [hstep]
      exact ihd r (upsert_keeps_dirty t now h hr hdirty) hdirty
    · intro r hr
      rw [hstep] at hr
      rcases ihc r hr with hmem | hclean
      · exact upsert_new_clean t now hmem
      · exact Or.inr hclean

/-- C10: `syncFromServer` leaves every dirty local task row unchanged
(even when the server returns a copy of that task), writes only
non-dirty rows — any row of the result that was not already present
locally carries `dirty = false` — and every row `taskToRow` produces has
`dirty = false`. -/
theorem syncFromServer_preserves_dirty (db : List TaskRow)
    (remote : List ServerTask) (now : String)
    (hnd : (db.map (fun r => r.id)).Nodup) :
    (∀ r ∈ db, r.dirty = true → r ∈ syncTasksFromServer db remote now) ∧
    (∀ r ∈ syncTasksFromServer db remote now, r ∉ db → r.dirty = false) ∧
    (∀ (t : ServerTask) (ts : String) (id : Nat),
      (taskToRow t ts id).dirty = false) := by
  obtain ⟨_, hd, hc⟩ := syncTasks_spec remote db now hnd
  exact ⟨hd, fun r hr hnot => (hc r hr).resolve_left hnot, fun _ _ _ => rfl⟩

/-- Witness for C10 on a concrete two-row table and a server copy of the
dirty row plus one new task. -/
theorem syncFromServer_preserves_dirty_witness :
    (exDb.map (fun r => r.id)).Nodup ∧
    ((∀ r ∈ exDb, r.dirty = true →
        r ∈ syncTasksFromServer exDb [exServerTask, exServerTaskNew] "t1") ∧
     (∀ r ∈ syncTasksFromServer exDb [exServerTask, exServerTaskNew] "t1",
        r ∉ exDb → r.dirty = false) ∧
     (∀ (t : ServerTask) (ts : String) (id : Nat),
       (taskToRow t ts id).dirty = false)) :=
  ⟨by decide,
   syncFromServer_preserves_dirty exDb [exServerTask, exServerTaskNew] "t1"
     (by decide)⟩

/-! ## Diff Engine lemmas (C5) -/

theorem classifyCandidate_of_none {confirmed : List DBlock} {c : DBlock}
    (hf : confirmed.find? (fun b => decide (b.key = c.key)) = none) :
    classifyCandidate confirmed c = some (DiffItem.added c) := by
  unfold classifyCandidate
  rw [hf]

theorem classifyCandidate_of_some {confirmed : List DBlock} {c b : DBlock}
    (hf : confirmed.find? (fun x => decide (x.key = c.key)) = some b) :
    classifyCandidate confirmed c =
      if b.startMin = c.startMin ∧ b.endMin = c.endMin then none
      else some (DiffItem.moved b c) := by
  unfold classifyCandidate
  rw [hf]

theorem classifyConfirmed_of_none {candidate : List DBlock} {b : DBlock}
    (hf : candidate.find? (fun c => decide (c.key = b.key)) = none) :
    classifyConfirmed candidate b = some (DiffItem.deleted b) := by
  unfold classifyConfirmed
  rw [hf]

theorem classifyConfirmed_of_some {candidate : List DBlock} {b c : DBlock}
    (hf : candidate.find? (fun x => decide (x.key = b.key)) = some c) :
    classifyConfirmed candidate b = none := by
  unfold classifyConfirmed
  rw [hf]

/-- In a list with pairwise-distinct keys, searching for a member's key
finds exactly that member. -/
theorem find?_key_self {l : List DBlock} {a : DBlock}
    (hnd : (l.map DBlock.key).Nodup) (ha : a ∈ l) :
    l.find? (fun b => decide (b.key = a.key)) = some a := by
  induction l with
  | nil => cases ha
  | cons x xs ih =>
    rw [List.map_cons, List.nodup_cons] at hnd
    rcases List.mem_cons.mp ha with hax | hax
    · subst hax
      simp [List.find?]
    · have hxa : x.key ≠ a.key := fun he =>
        hnd.1 (he ▸ List.mem_map_of_mem DBlock.key hax)
      rw [List.find?_cons_of_neg _ (by simpa using hxa)]
      exact ih hnd.2 hax

/-- Blocks with equal keys and equal start/end instants are equal. -/
theorem dblock_ext {b c : DBlock} (hk : b.key = c.key)
    (hs : b.startMin = c.startMin) (he : b.endMin = c.endMin) : b = c := by
  cases b
  cases c
  simp only [DBlock.key, Prod.mk.injEq] at hk
  simp_all

/-- Keys distinct implies distinct members with equal keys coincide. -/
theorem key_inj {l : List DBlock} (hnd : (l.map DBlock.key).Nodup)
    {a b : DBlock} (ha : a ∈ l) (hb : b ∈ l) (hk : a.key = b.key) : a = b :=
  List.inj_on_of_nodup_map hnd ha hb hk

/-- Membership in a computed diff comes from classifying one side. -/
theorem mem_computeDiff (confirmed candidate : List DBlock) (it : DiffItem) :
    it ∈ computeDiff confirmed candidate ↔
      (∃ c ∈ candidate, classifyCandidate confirmed c = some it) ∨
      (∃ b ∈ confirmed, classifyConfirmed candidate b = some it) := by
  unfold computeDiff
  simp [List.mem_filterMap]

/-- C5: the Diff Engine, matching blocks on the key (task identity, block
index), classifies each unmatched candidate block as added, each
unmatched confirmed block as deleted, each matched pair with differing
start/end as moved, omits identical matched pairs entirely, and its
items account for exactly the symmetric difference of the two block
sets. -/
theorem diff_classification (confirmed candidate : List DBlock)
    (hndC : (confirmed.map DBlock.key).Nodup)
    (hndD : (candidate.map DBlock.key).Nodup) :
    (∀ c ∈ candidate, (∀ b ∈ confirmed, b.key ≠ c.key) →
      DiffItem.added c ∈ computeDiff confirmed candidate) ∧
    (∀ b ∈ confirmed, (∀ c ∈ candidate, c.key ≠ b.key) →
      DiffItem.deleted b ∈ computeDiff confirmed candidate) ∧
    (∀ b ∈ confirmed, ∀ c ∈ candidate, b.key = c.key →
      ((b.startMin ≠ c.startMin ∨ b.endMin ≠ c.endMin) →
        DiffItem.moved b c ∈ computeDiff confirmed candidate) ∧
      (b.startMin = c.startMin → b.endMin = c.endMin →
        ∀ it ∈ computeDiff confirmed candidate,
          b ∉ it.blocks ∧ c ∉ it.blocks)) ∧
    (∀ x, inSymmDiff confirmed candidate x ↔
      ∃ it ∈ computeDiff confirmed candidate, x ∈ it.blocks) := by
  refine ⟨?_, ?_, ?_, ?_⟩
  · intro c hc hno
    have hf : confirmed.find? (fun b => decide (b.key = c.key)) = none :=
      List.find?_eq_none.mpr (fun b hb => by simpa using hno b hb)
    exact (mem_computeDiff _ _ _).mpr
      (Or.inl ⟨c, hc, classifyCandidate_of_none hf⟩)
  · intro b hb hno
    have hf : candidate.find? (fun c => decide (c.key = b.key)) = none :=
      List.find?_eq_none.mpr (fun c hc => by simpa using hno c hc)
    exact (mem_computeDiff _ _ _).mpr
      (Or.inr ⟨b, hb, classifyConfirmed_of_none hf⟩)
  · intro b hb c hc hkey
    constructor
    · intro hdiff
      have hf : confirmed.find? (fun x => decide (x.key = c.key)) = some b := by
        rw [← hkey]
        exact find?_key_self hndC hb
      have hcl : classifyCandidate confirmed c = some (DiffItem.moved b c) := by
        rw [classifyCandidate_of_some hf, if_neg (by tauto)]
      exact (mem_computeDiff _ _ _).mpr (Or.inl ⟨c, hc, hcl⟩)
    · intro hs he it hit
      have hbc : b = c := dblock_ext hkey hs he
      subst hbc
      suffices hbn : b ∉ it.blocks by exact ⟨hbn, hbn⟩
      rcases (mem_computeDiff _ _ _).mp hit with ⟨c2, hc2, hcl⟩ | ⟨b2, hb2, hcl⟩
      · rcases hf2 : confirmed.find? (fun x => decide (x.key = c2.key)) with _ | b2
        · rw [classifyCandidate_of_none hf2] at hcl
          have hit2 : it = DiffItem.added c2 := (Option.some.inj hcl).symm
          subst hit2
          simp only [DiffItem.blocks, List.mem_singleton]
          intro hbc2
          subst hbc2
          have := List.find?_eq_none.mp hf2 b hb
          simp at this
        · rw [classifyCandidate_of_some hf2] at hcl
          by_cases hident : b2.startMin = c2.startMin ∧ b2.endMin = c2.endMin
          · rw [if_pos hident] at hcl
            exact absurd hcl (by simp)
          · rw [if_neg hident] at hcl
            have hit2 : it = DiffItem.moved b2 c2 := (Option.some.inj hcl).symm
            subst hit2
            have hb2mem : b2 ∈ confirmed := List.mem_of_find?_eq_some hf2
            have hb2key : b2.key = c2.key := by
              simpa using List.find?_some hf2
            simp only [DiffItem.blocks, List.mem_cons, List.mem_singleton,
              List.not_mem_nil, or_false]
            rintro (hbb2 | hbc2)
            · subst hbb2
              have hc2b : c2 = b := key_inj hndD hc2 hc (by rw [← hb2key])
              exact hident (by rw [hc2b]; exact ⟨rfl, rfl⟩)
            · subst hbc2
              have hb2b : b2 = b := key_inj hndC hb2mem hb hb2key
              exact hident (by rw [hb2b]; exact ⟨rfl, rfl⟩)
      · rcases hf2 : candidate.find? (fun x => decide (x.key = b2.key)) with _ | c2
        · rw [classifyConfirmed_of_none hf2] at hcl
          have hit2 : it = DiffItem.deleted b2 := (Option.some.inj hcl).symm
          subst hit2
          simp only [DiffItem.blocks, List.mem_singleton]
          intro hbb2
          subst hbb2
          have := List.find?_eq_none.mp hf2 b hc
          simp at this
        · rw [classifyConfirmed_of_some hf2] at hcl
          exact absurd hcl (by simp)
  · intro x
    constructor
    · intro hsym
      rcases hsym with ⟨hxc, hxnc⟩ | ⟨hxc, hxnc⟩
      · rcases hf : confirmed.find? (fun b => decide (b.key = x.key)) with _ | b
        · exact ⟨DiffItem.added x,
            (mem_computeDiff _ _ _).mpr
              (Or.inl ⟨x, hxc, classifyCandidate_of_none hf⟩),
            by simp [DiffItem.blocks]⟩
        · have hbmem : b ∈ confirmed := List.mem_of_find?_eq_some hf
          have hbkey : b.key = x.key := by simpa using List.find?_some hf
          have hident : ¬(b.startMin = x.startMin ∧ b.endMin = x.endMin) := by
            rintro ⟨h1, h2⟩
            exact hxnc (dblock_ext hbkey h1 h2 ▸ hbmem)
          refine ⟨DiffItem.moved b x,
            (mem_computeDiff _ _ _).mpr (Or.inl ⟨x, hxc, ?_⟩),
            by simp [DiffItem.blocks]⟩
          rw [classifyCandidate_of_some hf, if_neg hident]
      · rcases hf : candidate.find? (fun c => decide (c.key = x.key)) with _ | c
        · exact ⟨DiffItem.deleted x,
            (mem_computeDiff _ _ _).mpr
              (Or.inr ⟨x, hxc, classifyConfirmed_of_none hf⟩),
            by simp [DiffItem.blocks]⟩
        · have hcmem : c ∈ candidate := List.mem_of_find?_eq_some hf
          have hckey : c.key = x.key := by simpa using List.find?_some hf
          have hfx : confirmed.find? (fun y => decide (y.key = c.key)) =
              some x := by
            rw [hckey]
            exact find?_key_self hndC hxc
          have hident : ¬(x.startMin = c.startMin ∧ x.endMin = c.endMin) := by
            rintro ⟨h1, h2⟩
            exact hxnc (dblock_ext hckey.symm h1 h2 ▸ hcmem)
          refine ⟨DiffItem.moved x c,
            (mem_computeDiff _ _ _).mpr (Or.inl ⟨c, hcmem, ?_⟩),
            by simp [DiffItem.blocks]⟩
          rw [classifyCandidate_of_some hfx, if_neg hident]
    · rintro ⟨it, hit, hmem⟩
      rcases (mem_computeDiff _ _ _).mp hit with ⟨c2, hc2, hcl⟩ | ⟨b2, hb2, hcl⟩
      · rcases hf : confirmed.find? (fun y => decide (y.key = c2.key)) with _ | b2
        · rw [classifyCandidate_of_none hf] at hcl
          have hit2 : it = DiffItem.added c2 := (Option.some.inj hcl).symm
          subst hit2
          simp only [DiffItem.blocks, List.mem_singleton] at hmem
          subst hmem
          left
          refine ⟨hc2, fun hxconf => ?_⟩
          have := List.find?_eq_none.mp hf _ hxconf
          simp at this
        · rw [classifyCandidate_of_some hf] at hcl
          by_cases hident : b2.startMin = c2.startMin ∧ b2.endMin = c2.endMin
          · rw [if_pos hident] at hcl
            exact absurd hcl (by simp)
          · rw [if_neg hident] at hcl
            have hit2 : it = DiffItem.moved b2 c2 := (Option.some.inj hcl).symm
            subst hit2
            have hb2mem : b2 ∈ confirmed := List.mem_of_find?_eq_some hf
            have hb2key : b2.key = c2.key := by simpa using List.find?_some hf
            have hneq : b2 ≠ c2 := fun heq =>
              hident (by rw [heq]; exact ⟨rfl, rfl⟩)
            simp only [DiffItem.blocks, List.mem_cons, List.mem_singleton,
              List.not_mem_nil, or_false] at hmem
            rcases hmem with hxb | hxc2
            · subst hxb
              right
              refine ⟨hb2mem, fun hxcand => ?_⟩
              exact hneq (key_inj hndD hxcand hc2 hb2key)
            · subst hxc2
              left
              refine ⟨hc2, fun hxconf => ?_⟩
              exact hneq (key_inj hndC hb2mem hxconf hb2key)
      · rcases hf : candidate.find? (fun y => decide (y.key = b2.key)) with _ | c2
        · rw [classifyConfirmed_of_none hf] at hcl
          have hit2 : it = DiffItem.deleted b2 := (Option.some.inj hcl).symm
          subst hit2
          simp only [DiffItem.blocks, List.mem_singleton] at hmem
          subst hmem
          right
          refine ⟨hb2, fun hxcand => ?_⟩
          have := List.find?_eq_none.mp hf _ hxcand
          simp at this
        · rw [classifyConfirmed_of_some hf] at hcl
          exact absurd hcl (by simp)

/-- Witness for C5 on concrete block sets (one unchanged, one moved, one
added block). -/
theorem diff_classification_witness :
    (exConfirmedD.map DBlock.key).Nodup ∧
    (exCandidateD.map DBlock.key).Nodup ∧
    (∀ x, inSymmDiff exConfirmedD exCandidateD x ↔
      ∃ it ∈ computeDiff exConfirmedD exCandidateD, x ∈ it.blocks) :=
  ⟨by decide, by decide,
   (diff_classification exConfirmedD exCandidateD (by decide) (by decide)).2.2.2⟩

/-! ## Allocator placement invariants (C1, C3) -/

theorem admRunFrom_spec (i : GenInput) (occ : List Nat) :
    ∀ (l : List Nat) (e j : Nat), j < admRunFrom i occ l e →
      admissible i occ (e + j) = true := by
  intro l
  induction l with
  | nil =>
    intro e j h
    simp [admRunFrom] at h
  | cons s rest ih =>
    intro e j h
    unfold admRunFrom at h
    by_cases hc : s = e ∧ admissible i occ s = true
    · rw [if_pos hc] at h
      obtain ⟨hse, hadm⟩ := hc
      subst hse
      rcases j with _ | j2
      · simpa using hadm
      · have hrec := ih (s + 1) j2 (by omega)
        rw [show s + (j2 + 1) = s + 1 + j2 by omega]
        exact hrec
    · rw [if_neg hc] at h
      omega

theorem admissible_facts {i : GenInput} {occ : List Nat} {s : Nat}
    (h : admissible i occ s = true) :
    slotFree i s = true ∧ s ∉ occ := by
  unfold admissible at h
  simp only [Bool.and_eq_true, Bool.not_eq_true', decide_eq_false_iff_not] at h
  exact ⟨h.1.1, h.1.2⟩

theorem placeForTask_nil (i : GenInput) (tid eMin eMax : Nat)
    (occ : List Nat) (remaining bidx : Nat) :
    placeForTask i tid eMin eMax [] occ remaining bidx = ⟨[], occ, remaining⟩ :=
  rfl

theorem placeForTask_stop (i : GenInput) (tid eMin eMax : Nat)
    (s : Nat) (rest occ : List Nat) (remaining bidx : Nat)
    (h : remaining < eMin ∨ remaining = 0) :
    placeForTask i tid eMin eMax (s :: rest) occ remaining bidx =
      ⟨[], occ, remaining⟩ := by
  unfold placeForTask
  rw [if_pos h]

theorem placeForTask_skip_inadm (i : GenInput) (tid eMin eMax : Nat)
    (s : Nat) (rest occ : List Nat) (remaining bidx : Nat)
    (h0 : ¬(remaining < eMin ∨ remaining = 0))
    (hadm : ¬ admissible i occ s = true) :
    placeForTask i tid eMin eMax (s :: rest) occ remaining bidx =
      placeForTask i tid eMin eMax rest occ remaining bidx := by
  conv_lhs => unfold placeForTask
  rw [if_neg h0, if_neg hadm]

theorem placeForTask_skip_short (i : GenInput) (tid eMin eMax : Nat)
    (s : Nat) (rest occ : List Nat) (remaining bidx : Nat)
    (h0 : ¬(remaining < eMin ∨ remaining = 0))
    (hadm : admissible i occ s = true)
    (hcut : ¬(eMin ≤ min remaining (min eMax
        ((1 + admRunFrom i occ rest (s + 1)) * i.rules.slotMinutes)) ∧
      0 < min remaining (min eMax
        ((1 + admRunFrom i occ rest (s + 1)) * i.rules.slotMinutes)))) :
    placeForTask i tid eMin eMax (s :: rest) occ remaining bidx =
      placeForTask i tid eMin eMax rest occ remaining bidx := by
  conv_lhs => unfold placeForTask
  rw [if_neg h0, if_pos hadm]
  simp only [if_neg hcut]

theorem placeForTask_place (i : GenInput) (tid eMin eMax : Nat)
    (s : Nat) (rest occ : List Nat) (remaining bidx : Nat)
    (h0 : ¬(remaining < eMin ∨ remaining = 0))
    (hadm : admissible i occ s = true)
    (hcut : eMin ≤ min remaining (min eMax
        ((1 + admRunFrom i occ rest (s + 1)) * i.rules.slotMinutes)) ∧
      0 < min remaining (min eMax
        ((1 + admRunFrom i occ rest (s + 1)) * i.rules.slotMinutes))) :
    placeForTask i tid eMin eMax (s :: rest) occ remaining bidx =
      ⟨⟨tid, s * i.rules.slotMinutes,
          s * i.rules.slotMinutes + min remaining (min eMax
            ((1 + admRunFrom i occ rest (s + 1)) * i.rules.slotMinutes)),
          bidx, false⟩ ::
        (placeForTask i tid eMin eMax rest
          (occ ++ List.range' s (cdiv (min remaining (min eMax
            ((1 + admRunFrom i occ rest (s + 1)) * i.rules.slotMinutes)))
            i.rules.slotMinutes))
          (remaining - min remaining (min eMax
            ((1 + admRunFrom i occ rest (s + 1)) * i.rules.slotMinutes)))
          (bidx + 1)).blocks,
       (placeForTask i tid eMin eMax rest
          (occ ++ List.range' s (cdiv (min remaining (min eMax
            ((1 + admRunFrom i occ rest (s + 1)) * i.rules.slotMinutes)))
            i.rules.slotMinutes))
          (remaining - min remaining (min eMax
            ((1 + admRunFrom i occ rest (s + 1)) * i.rules.slotMinutes)))
          (bidx + 1)).occ,
       (placeForTask i tid eMin eMax rest
          (occ ++ List.range' s (cdiv (min remaining (min eMax
            ((1 + admRunFrom i occ rest (s + 1)) * i.rules.slotMinutes)))
            i.rules.slotMinutes))
          (remaining - min remaining (min eMax
            ((1 + admRunFrom i occ rest (s + 1)) * i.rules.slotMinutes)))
          (bidx + 1)).remaining⟩ := by
  conv_lhs => unfold placeForTask
  rw [if_neg h0, if_pos hadm]
  simp only [if_pos hcut]

theorem sumLens_nil : sumLens [] = 0 := rfl

theorem sumLens_cons (b : StudyBlock) (bs : List StudyBlock) :
    sumLens (b :: bs) = (b.endMin - b.startMin) + sumLens bs := by
  simp [sumLens]

theorem sumLens_append (xs ys : List StudyBlock) :
    sumLens (xs ++ ys) = sumLens xs + sumLens ys := by
  simp [sumLens]

theorem blockSlots_mk {w : Nat} (hw : 0 < w) (tid s len bidx : Nat) :
    blockSlots w ⟨tid, s * w, s * w + len, bidx, false⟩ =
      List.range' s (cdiv len w) := by
  unfold blockSlots
  rw [show (⟨tid, s * w, s * w + len, bidx, false⟩ : StudyBlock).startMin =
    s * w from rfl]
  rw [show (⟨tid, s * w, s * w + len, bidx, false⟩ : StudyBlock).endMin =
    s * w + len from rfl]
  rw [Nat.mul_div_cancel _ hw, Nat.add_sub_cancel_left]

/-- The master invariant of one task's placement walk: the remaining
requirement never grows, the placed minutes account exactly for the
consumed requirement, the occupied list grows by exactly the placed
blocks' slots, every placed block is well-shaped over statically free
fresh slots, and placed blocks touch pairwise disjoint slots. -/
theorem placeForTask_spec (i : GenInput) (tid eMin eMax : Nat)
    (hw : 0 < i.rules.slotMinutes) :
    ∀ (slots occ : List Nat) (remaining bidx : Nat),
      (placeForTask i tid eMin eMax slots occ remaining bidx).remaining ≤
        remaining ∧
      sumLens (placeForTask i tid eMin eMax slots occ remaining bidx).blocks =
        remaining -
          (placeForTask i tid eMin eMax slots occ remaining bidx).remaining ∧
      (placeForTask i tid eMin eMax slots occ remaining bidx).occ =
        occ ++ (placeForTask i tid eMin eMax slots occ
          remaining bidx).blocks.flatMap (blockSlots i.rules.slotMinutes) ∧
      (∀ b ∈ (placeForTask i tid eMin eMax slots occ remaining bidx).blocks,
        b.taskId = tid ∧ placedBlockOk i b ∧
          ∀ u ∈ blockSlots i.rules.slotMinutes b, u ∉ occ) ∧
      List.Pairwise (slotDisjoint i.rules.slotMinutes)
        (placeForTask i tid eMin eMax slots occ remaining bidx).blocks := by
  intro slots
  induction slots with
  | nil =>
    intro occ remaining bidx
    rw [placeForTask_nil]
    simp [sumLens]
  | cons s rest ih =>
    intro occ remaining bidx
    by_cases h0 : remaining < eMin ∨ remaining = 0
    · rw [placeForTask_stop i tid eMin eMax s rest occ remaining bidx h0]
      simp [sumLens]
    · by_cases hadm : admissible i occ s = true
      · by_cases hcut : eMin ≤ min remaining (min eMax
            ((1 + admRunFrom i occ rest (s + 1)) * i.rules.slotMinutes)) ∧
          0 < min remaining (min eMax
            ((1 + admRunFrom i occ rest (s + 1)) * i.rules.slotMinutes))
        · rw [placeForTask_place i tid eMin eMax s rest occ remaining bidx
            h0 hadm hcut]
          obtain ⟨ih1, ih2, ih3, ih4, ih5⟩ :=
            ih (occ ++ List.range' s (cdiv (min remaining (min eMax
              ((1 + admRunFrom i occ rest (s + 1)) * i.rules.slotMinutes)))
              i.rules.slotMinutes))
              (remaining - min remaining (min eMax
                ((1 + admRunFrom i occ rest (s + 1)) * i.rules.slotMinutes)))
              (bidx + 1)
          set L := min remaining (min eMax
            ((1 + admRunFrom i occ rest (s + 1)) * i.rules.slotMinutes))
            with hLdef
          set U := cdiv L i.rules.slotMinutes with hUdef
          set P := placeForTask i tid eMin eMax rest
            (occ ++ List.range' s U) (remaining - L) (bidx + 1) with hPdef
          have hLrem : L ≤ remaining := by
            rw [hLdef]
            exact min_le_left _ _
          have hLrun : L ≤ (1 + admRunFrom i occ rest (s + 1)) *
              i.rules.slotMinutes := by
            rw [hLdef]
            exact le_trans (min_le_right _ _) (min_le_right _ _)
          have hLpos : 0 < L := hcut.2
          have hUpos : 0 < U := by
            rw [hUdef]
            exact cdiv_pos hw hLpos
          have hUrun : U ≤ 1 + admRunFrom i occ rest (s + 1) := by
            rw [hUdef]
            exact cdiv_le_of_le_mul hw hLrun
          have hLU : L ≤ U * i.rules.slotMinutes := by
            rw [hUdef]
            exact le_cdiv_mul L _ hw
          have hadmAll : ∀ u ∈ List.range' s U, admissible i occ u = true := by
            intro u hu
            rw [List.mem_range'_1] at hu
            by_cases hus : u = s
            · rw [hus]
              exact hadm
            · have hs1 : s + 1 ≤ u := by omega
              have hj : u - (s + 1) < admRunFrom i occ rest (s + 1) := by omega
              have hspec := admRunFrom_spec i occ rest (s + 1) (u - (s + 1)) hj
              rw [show s + 1 + (u - (s + 1)) = u by omega] at hspec
              exact hspec
          have hfree : ∀ u ∈ List.range' s U, slotFree i u = true ∧ u ∉ occ :=
            fun u hu => admissible_facts (hadmAll u hu)
          have hbs : blockSlots i.rules.slotMinutes
              ⟨tid, s * i.rules.slotMinutes, s * i.rules.slotMinutes + L,
                bidx, false⟩ = List.range' s U := by
            rw [hUdef]
            exact blockSlots_mk hw tid s L bidx
          refine ⟨?_, ?_, ?_, ?_, ?_⟩
          · show P.remaining ≤ remaining
            omega
          · show sumLens (⟨tid, s * i.rules.slotMinutes,
              s * i.rules.slotMinutes + L, bidx, false⟩ :: P.blocks) =
              remaining - P.remaining
            rw [sumLens_cons]
            have hblen : (⟨tid, s * i.rules.slotMinutes,
                s * i.rules.slotMinutes + L, bidx, false⟩ :
                StudyBlock).endMin - (⟨tid, s * i.rules.slotMinutes,
                s * i.rules.slotMinutes + L, bidx, false⟩ :
                StudyBlock).startMin = L := by
              show s * i.rules.slotMinutes + L - s * i.rules.slotMinutes = L
              omega
            rw [hblen, ih2]
            omega
          · show P.occ = occ ++ (⟨tid, s * i.rules.slotMinutes,
              s * i.rules.slotMinutes + L, bidx, false⟩ ::
                P.blocks).flatMap (blockSlots i.rules.slotMinutes)
            rw [ih3, List.flatMap_cons, hbs, List.append_assoc]
          · intro b hb
            rcases List.mem_cons.mp hb with hbeq | hbmem
            · subst hbeq
              refine ⟨rfl, ⟨rfl, by show s * i.rules.slotMinutes <
                  s * i.rules.slotMinutes + L; omega,
                s, U, hUpos, rfl, hbs, ?_, fun u hu => (hfree u hu).1⟩,
                fun u hu => ?_⟩
              · show s * i.rules.slotMinutes + L ≤
                  (s + U) * i.rules.slotMinutes
                rw [Nat.add_mul]
                omega
              · rw [hbs] at hu
                exact (hfree u hu).2
            · obtain ⟨hbt, hbok, hbfresh⟩ := ih4 b hbmem
              exact ⟨hbt, hbok, fun u hu huocc =>
                hbfresh u hu (List.mem_append_left _ huocc)⟩
          · refine List.pairwise_cons.mpr ⟨?_, ih5⟩
            intro b2 hb2 u hu hu2
            rw [hbs] at hu
            exact (ih4 b2 hb2).2.2 u hu2 (List.mem_append_right _ hu)
        · rw [placeForTask_skip_short i tid eMin eMax s rest occ remaining
            bidx h0 hadm hcut]
          exact ih occ remaining bidx
      · rw [placeForTask_skip_inadm i tid eMin eMax s rest occ remaining
          bidx h0 hadm]
        exact ih occ remaining bidx

theorem requiredMinutes_of_none {t : Task} (hest : t.estimatedHours = none) :
    t.requiredMinutes = 0 := by
  unfold Task.requiredMinutes
  rw [hest]

theorem allocOneTask_of_none (i : GenInput) (occ : List Nat) {t : Task}
    (hest : t.estimatedHours = none) :
    allocOneTask i occ t = ⟨[], occ, [Warning.needsEstimate t.id]⟩ := by
  unfold allocOneTask
  rw [hest]

theorem allocOneTask_of_some (i : GenInput) (occ : List Nat) {t : Task}
    {h : ℚ} (hest : t.estimatedHours = some h) :
    allocOneTask i occ t =
      ⟨(placeForTask i t.id
          (if t.splittable then t.minBlockMinutes else t.requiredMinutes)
          (if t.splittable then t.maxBlockMinutes else t.requiredMinutes)
          (taskSlots i t) occ t.requiredMinutes 0).blocks,
       (placeForTask i t.id
          (if t.splittable then t.minBlockMinutes else t.requiredMinutes)
          (if t.splittable then t.maxBlockMinutes else t.requiredMinutes)
          (taskSlots i t) occ t.requiredMinutes 0).occ,
       if (placeForTask i t.id
            (if t.splittable then t.minBlockMinutes else t.requiredMinutes)
            (if t.splittable then t.maxBlockMinutes else t.requiredMinutes)
            (taskSlots i t) occ t.requiredMinutes 0).remaining = 0 then []
       else if (placeForTask i t.id
            (if t.splittable then t.minBlockMinutes else t.requiredMinutes)
            (if t.splittable then t.maxBlockMinutes else t.requiredMinutes)
            (taskSlots i t) occ t.requiredMinutes 0).remaining =
            t.requiredMinutes then [Warning.unschedulable t.id]
       else [Warning.infeasible t.id]⟩ := by
  unfold allocOneTask
  rw [hest]

/-- One task's allocation: well-shaped fresh disjoint blocks, warnings
naming only this task, and placed minutes that never exceed the
requirement and match it exactly unless a warning is emitted. -/
theorem allocOneTask_spec (i : GenInput) (occ : List Nat) (t : Task)
    (hw : 0 < i.rules.slotMinutes) :
    (allocOneTask i occ t).occ =
      occ ++ (allocOneTask i occ t).blocks.flatMap
        (blockSlots i.rules.slotMinutes) ∧
    (∀ b ∈ (allocOneTask i occ t).blocks, b.taskId = t.id ∧
      placedBlockOk i b ∧
      ∀ u ∈ blockSlots i.rules.slotMinutes b, u ∉ occ) ∧
    List.Pairwise (slotDisjoint i.rules.slotMinutes)
      (allocOneTask i occ t).blocks ∧
    (∀ wn ∈ (allocOneTask i occ t).warnings, wn.taskId = t.id) ∧
    sumLens (allocOneTask i occ t).blocks ≤ t.requiredMinutes ∧
    (sumLens (allocOneTask i occ t).blocks = t.requiredMinutes ∨
      (allocOneTask i occ t).warnings ≠ []) ∧
    (t.estimatedHours = none → (allocOneTask i occ t).warnings ≠ []) := by
  rcases hest : t.estimatedHours with _ | h
  · rw [allocOneTask_of_none i occ hest]
    refine ⟨by simp, by simp, by simp, ?_, ?_, ?_, by simp⟩
    · intro wn hwn
      rw [List.mem_singleton.mp hwn]
      rfl
    · simp [sumLens]
    · left
      rw [requiredMinutes_of_none hest]
      simp [sumLens]
  · rw [allocOneTask_of_some i occ hest]
    obtain ⟨p1, p2, p3, p4, p5⟩ := placeForTask_spec i t.id
      (if t.splittable then t.minBlockMinutes else t.requiredMinutes)
      (if t.splittable then t.maxBlockMinutes else t.requiredMinutes) hw
      (taskSlots i t) occ t.requiredMinutes 0
    set P := placeForTask i t.id
      (if t.splittable then t.minBlockMinutes else t.requiredMinutes)
      (if t.splittable then t.maxBlockMinutes else t.requiredMinutes)
      (taskSlots i t) occ t.requiredMinutes 0 with hPdef
    refine ⟨p3, p4, p5, ?_, ?_, ?_, ?_⟩
    · intro wn hwn
      by_cases hr0 : P.remaining = 0
      · rw [if_pos hr0] at hwn
        simp at hwn
      · rw [if_neg hr0] at hwn
        by_cases hrall : P.remaining = t.requiredMinutes
        · rw [if_pos hrall] at hwn
          rw [List.mem_singleton.mp hwn]
          rfl
        · rw [if_neg hrall] at hwn
          rw [List.mem_singleton.mp hwn]
          rfl
    · show sumLens P.blocks ≤ t.requiredMinutes
      omega
    · show sumLens P.blocks = t.requiredMinutes ∨
        (if P.remaining = 0 then []
         else if P.remaining = t.requiredMinutes then
           [Warning.unschedulable t.id]
         else [Warning.infeasible t.id]) ≠ []
      by_cases hr0 : P.remaining = 0
      · left
        omega
      · right
        rw [if_neg hr0]
        by_cases hrall : P.remaining = t.requiredMinutes
        · rw [if_pos hrall]
          simp
        · rw [if_neg hrall]
          simp
    · intro habs
      exact Option.noConfusion habs

theorem allocateAll_nil (i : GenInput) (occ : List Nat) :
    allocateAll i [] occ = ⟨[], occ, []⟩ := rfl

theorem allocateAll_cons (i : GenInput) (t : Task) (ts : List Task)
    (occ : List Nat) :
    allocateAll i (t :: ts) occ =
      ⟨(allocOneTask i occ t).blocks ++
        (allocateAll i ts (allocOneTask i occ t).occ).blocks,
       (allocateAll i ts (allocOneTask i occ t).occ).occ,
       (allocOneTask i occ t).warnings ++
        (allocateAll i ts (allocOneTask i occ t).occ).warnings⟩ := rfl

/-- The whole allocation pass: placed blocks are well-shaped over fresh
slots, pairwise slot-disjoint, attributed to listed tasks, and — when
task ids are distinct — each task's placed minutes stay within its
requirement and match it exactly unless a warning names the task. -/
theorem allocateAll_spec (i : GenInput) (hw : 0 < i.rules.slotMinutes) :
    ∀ (ts : List Task) (occ : List Nat),
      (allocateAll i ts occ).occ =
        occ ++ (allocateAll i ts occ).blocks.flatMap
          (blockSlots i.rules.slotMinutes) ∧
      (∀ b ∈ (allocateAll i ts occ).blocks, placedBlockOk i b ∧
        (∃ t ∈ ts, b.taskId = t.id) ∧
        ∀ u ∈ blockSlots i.rules.slotMinutes b, u ∉ occ) ∧
      List.Pairwise (slotDisjoint i.rules.slotMinutes)
        (allocateAll i ts occ).blocks ∧
      ((ts.map Task.id).Nodup → ∀ t ∈ ts,
        sumLens ((allocateAll i ts occ).blocks.filter
          (fun b => decide (b.taskId = t.id))) ≤ t.requiredMinutes ∧
        (sumLens ((allocateAll i ts occ).blocks.filter
            (fun b => decide (b.taskId = t.id))) = t.requiredMinutes ∨
          ∃ wn ∈ (allocateAll i ts occ).warnings, wn.taskId = t.id) ∧
        (t.estimatedHours = none →
          ∃ wn ∈ (allocateAll i ts occ).warnings, wn.taskId = t.id)) := by
  intro ts
  induction ts with
  | nil =>
    intro occ
    rw [allocateAll_nil]
    simp
  | cons t2 ts2 ih =>
    intro occ
    rw [allocateAll_cons]
    obtain ⟨a1, a2, a3, a4, a5, a6, a7⟩ := allocOneTask_spec i occ t2 hw
    obtain ⟨b1, b2, b3, bper⟩ := ih (allocOneTask i occ t2).occ
    have hsubocc : ∀ u : Nat, u ∈ occ → u ∈ (allocOneTask i occ t2).occ := by
      intro u hu
      rw [a1]
      exact List.mem_append_left _ hu
    refine ⟨?_, ?_, ?_, ?_⟩
    · show (allocateAll i ts2 (allocOneTask i occ t2).occ).occ = _
      rw [b1, a1, List.flatMap_append, List.append_assoc]
    · intro b hb
      rcases List.mem_append.mp hb with hbA | hbB
      · obtain ⟨hid, hok, hfresh⟩ := a2 b hbA
        exact ⟨hok, ⟨t2, List.mem_cons_self t2 ts2, hid⟩, hfresh⟩
      · obtain ⟨hok, ⟨u, hu, hid⟩, hfresh⟩ := b2 b hbB
        exact ⟨hok, ⟨u, List.mem_cons_of_mem t2 hu, hid⟩,
          fun v hv hvocc => hfresh v hv (hsubocc v hvocc)⟩
    · refine List.pairwise_append.mpr ⟨a3, b3, ?_⟩
      intro bA hbA bB hbB u hu hu2
      have huAocc : u ∈ (allocOneTask i occ t2).occ := by
        rw [a1]
        exact List.mem_append_right _
          (List.mem_flatMap.mpr ⟨bA, hbA, hu⟩)
      exact (b2 bB hbB).2.2 u hu2 huAocc
    · intro hnd t ht
      rw [List.map_cons, List.nodup_cons] at hnd
      rcases List.mem_cons.mp ht with hteq | htmem
      · subst hteq
        have hfA : (allocOneTask i occ t).blocks.filter
            (fun b => decide (b.taskId = t.id)) =
            (allocOneTask i occ t).blocks :=
          List.filter_eq_self.mpr (fun b hb => by simp [(a2 b hb).1])
        have hfB : (allocateAll i ts2 (allocOneTask i occ t).occ).blocks.filter
            (fun b => decide (b.taskId = t.id)) = [] := by
          rw [List.filter_eq_nil_iff]
          intro b hb
          obtain ⟨_, ⟨u, hu, hid⟩, _⟩ := b2 b hb
          simp only [decide_eq_true_eq]
          intro heq
          exact hnd.1 (by
            rw [← heq, hid]
            exact List.mem_map_of_mem Task.id hu)
        rw [List.filter_append, hfA, hfB, List.append_nil]
        have hwarnA : (allocOneTask i occ t).warnings ≠ [] →
            ∃ wn ∈ (allocOneTask i occ t).warnings ++
              (allocateAll i ts2 (allocOneTask i occ t).occ).warnings,
              wn.taskId = t.id := by
          intro hne
          rcases hAw : (allocOneTask i occ t).warnings with _ | ⟨wn, ws⟩
          · exact absurd hAw hne
          · refine ⟨wn, List.mem_append_left _ ?_, ?_⟩
            · simp [hAw]
            · exact a4 wn (by rw [hAw]; exact List.mem_cons_self wn ws)
        refine ⟨a5, ?_, fun hnone => hwarnA (a7 hnone)⟩
        rcases a6 with heq | hne
        · exact Or.inl heq
        · exact Or.inr (hwarnA hne)
      · have htid : t.id ∈ ts2.map Task.id := List.mem_map_of_mem Task.id htmem
        have hfA : (allocOneTask i occ t2).blocks.filter
            (fun b => decide (b.taskId = t.id)) = [] := by
          rw [List.filter_eq_nil_iff]
          intro b hb
          simp only [decide_eq_true_eq]
          intro heq
          exact hnd.1 (by rw [← (a2 b hb).1, heq]; exact htid)
        obtain ⟨s1, s2, s3⟩ := bper hnd.2 t htmem
        rw [List.filter_append, hfA, List.nil_append]
        refine ⟨s1, ?_, ?_⟩
        · rcases s2 with heq | ⟨wn, hwn, hwt⟩
          · exact Or.inl heq
          · exact Or.inr ⟨wn, List.mem_append_right _ hwn, hwt⟩
        · intro hnone
          obtain ⟨wn, hwn, hwt⟩ := s3 hnone
          exact ⟨wn, List.mem_append_right _ hwn, hwt⟩

theorem insertTask_perm (t : Task) (l : List Task) :
    (insertTask t l).Perm (t :: l) := by
  induction l with
  | nil => exact List.Perm.refl _
  | cons u us ih =>
    unfold insertTask
    by_cases h : taskLE t u = true
    · rw [if_pos h]
    · rw [if_neg h]
      exact (ih.cons u).trans (List.Perm.swap t u us)

theorem sortTasks_perm (ts : List Task) : (sortTasks ts).Perm ts := by
  induction ts with
  | nil => exact List.Perm.refl _
  | cons t ts2 ih =>
    show (insertTask t (sortTasks ts2)).Perm (t :: ts2)
    exact (insertTask_perm t (sortTasks ts2)).trans (ih.cons t)

theorem generate_of_configOk {i : GenInput} (hc : configOk i = true) :
    generate i = Except.ok
      ⟨(allocateAll i (sortTasks (i.tasks.filter
          (fun t => decide (t.status = TaskStatus.active)))) []).blocks,
       (allocateAll i (sortTasks (i.tasks.filter
          (fun t => decide (t.status = TaskStatus.active)))) []).warnings⟩ := by
  unfold generate
  rw [if_pos hc]

theorem configOk_slotPos {i : GenInput} (hc : configOk i = true) :
    0 < i.rules.slotMinutes := by
  unfold configOk SchedulingRules.valid at hc
  simp only [Bool.and_eq_true, decide_eq_true_eq] at hc
  exact hc.1.1.1.1.1.1.1.1.1.2

theorem mem_blockSlots_of_instant {i : GenInput} {b : StudyBlock}
    (hw : 0 < i.rules.slotMinutes) (hok : placedBlockOk i b) {m : Nat}
    (h1 : b.startMin ≤ m) (h2 : m < b.endMin) :
    m / i.rules.slotMinutes ∈ blockSlots i.rules.slotMinutes b := by
  obtain ⟨_, _, s, k, hk, hstart, hbs, hend, _⟩ := hok
  rw [hbs]
  apply div_mem_range' hw
  · rw [← hstart]
    exact h1
  · exact lt_of_lt_of_le h2 hend

theorem placed_not_overlaps {i : GenInput} {b1 b2 : StudyBlock}
    (hw : 0 < i.rules.slotMinutes) (h1 : placedBlockOk i b1)
    (h2 : placedBlockOk i b2)
    (hd : slotDisjoint i.rules.slotMinutes b1 b2) :
    ¬ StudyBlock.overlaps b1 b2 := by
  rintro ⟨m, hm1, hm2, hm3, hm4⟩
  exact hd (m / i.rules.slotMinutes)
    (mem_blockSlots_of_instant hw h1 hm1 hm2)
    (mem_blockSlots_of_instant hw h2 hm3 hm4)

theorem pinned_not_overlaps {i : GenInput} {b p : StudyBlock}
    (hw : 0 < i.rules.slotMinutes) (hb : placedBlockOk i b)
    (hp : p ∈ i.pinned) : ¬ StudyBlock.overlaps p b := by
  rintro ⟨m, hmp1, hmp2, hmb1, hmb2⟩
  have hu := mem_blockSlots_of_instant hw hb hmb1 hmb2
  obtain ⟨_, _, s, k, hk, hstart, hbs, hend, hfree⟩ := hb
  rw [hbs] at hu
  have hsf := hfree _ hu
  unfold slotFree at hsf
  simp only [Bool.and_eq_true, Bool.not_eq_true'] at hsf
  have hpinned := hsf.2
  unfold slotHitsPinned at hpinned
  rw [List.any_eq_false] at hpinned
  have hnp := hpinned p hp
  simp only [Bool.and_eq_true, decide_eq_true_eq, not_and] at hnp
  obtain ⟨hlow, hhigh⟩ := div_interval (w := i.rules.slotMinutes) (m := m) hw
  exact hnp (by omega) (by omega)

/-- C1: for every confirmed plan version — `confirm` persists the
candidate set `pinned ++ placed` verbatim — no two blocks share any time
instant, and every non-pinned block's interval lies within slots marked
available in the grid for its weekday; pinned blocks are exempt from the
grid condition. -/
theorem confirmed_version_invariant (i : GenInput) (r : GenResult)
    (hpin : ∀ b ∈ i.pinned, b.pinned = true)
    (hpinpair : List.Pairwise (fun a b => ¬ StudyBlock.overlaps a b) i.pinned)
    (hgen : generate i = Except.ok r) :
    List.Pairwise (fun a b => ¬ StudyBlock.overlaps a b) (candidateSet i r) ∧
    (∀ b ∈ candidateSet i r, b.pinned = false →
      ∀ m, b.startMin ≤ m → m < b.endMin →
        gridAvailable i (m / i.rules.slotMinutes) = true) := by
  have hc : configOk i = true := by
    by_contra hcc
    rw [Bool.not_eq_true] at hcc
    unfold generate at hgen
    rw [if_neg (by rw [hcc]; exact Bool.false_ne_true)] at hgen
    exact Except.noConfusion hgen
  have hw : 0 < i.rules.slotMinutes := configOk_slotPos hc
  have hgen2 := generate_of_configOk hc
  rw [hgen2] at hgen
  have hr := Except.ok.inj hgen
  subst hr
  obtain ⟨g1, g2, g3, _⟩ := allocateAll_spec i hw
    (sortTasks (i.tasks.filter
      (fun t => decide (t.status = TaskStatus.active)))) []
  constructor
  · refine List.pairwise_append.mpr ⟨hpinpair, ?_, ?_⟩
    · exact g3.imp_of_mem (fun ha hb hd =>
        placed_not_overlaps hw (g2 _ ha).1 (g2 _ hb).1 hd)
    · intro p hp b hb
      exact pinned_not_overlaps hw (g2 b hb).1 hp
  · intro b hb hbflag m hm1 hm2
    rcases List.mem_append.mp hb with hbp | hbB
    · rw [hpin b hbp] at hbflag
      exact Bool.noConfusion hbflag
    · obtain ⟨hok, _, _⟩ := g2 b hbB
      have hu := mem_blockSlots_of_instant hw hok hm1 hm2
      obtain ⟨_, _, s, k, hk, hstart, hbs, hend, hfree⟩ := hok
      rw [hbs] at hu
      have hsf := hfree _ hu
      unfold slotFree at hsf
      simp only [Bool.and_eq_true] at hsf
      exact hsf.1.1

/-- Witness for C1 at the concrete example input (no pinned blocks, one
task placed as a single hour block over available slots). -/
theorem confirmed_version_invariant_witness :
    generate exInput = Except.ok exResult ∧
    (List.Pairwise (fun a b => ¬ StudyBlock.overlaps a b)
        (candidateSet exInput exResult) ∧
      (∀ b ∈ candidateSet exInput exResult, b.pinned = false →
        ∀ m, b.startMin ≤ m → m < b.endMin →
          gridAvailable exInput (m / exInput.rules.slotMinutes) = true)) :=
  ⟨rfl, confirmed_version_invariant exInput exResult
    (by simp [exInput]) (by simp [exInput]) rfl⟩

/-- C3: in one generate result, every active task with a non-null
estimate receives at most its required minutes, and exactly its required
minutes unless a warning names it; an active task with a null estimate
is never silently dropped — a warning names it. -/
theorem allocation_bounded_with_warnings (i : GenInput) (r : GenResult)
    (hgen : generate i = Except.ok r)
    (hnd : ((i.tasks.filter
      (fun t => decide (t.status = TaskStatus.active))).map Task.id).Nodup) :
    ∀ t ∈ i.tasks, t.status = TaskStatus.active →
      (t.estimatedHours = none →
        ∃ wn ∈ r.warnings, wn.taskId = t.id) ∧
      (∀ h : ℚ, t.estimatedHours = some h →
        sumLens (r.blocks.filter (fun b => decide (b.taskId = t.id))) ≤
          t.requiredMinutes ∧
        (sumLens (r.blocks.filter (fun b => decide (b.taskId = t.id))) =
            t.requiredMinutes ∨
          ∃ wn ∈ r.warnings, wn.taskId = t.id)) := by
  intro t ht hact
  have hc : configOk i = true := by
    by_contra hcc
    rw [Bool.not_eq_true] at hcc
    unfold generate at hgen
    rw [if_neg (by rw [hcc]; exact Bool.false_ne_true)] at hgen
    exact Except.noConfusion hgen
  have hw : 0 < i.rules.slotMinutes := configOk_slotPos hc
  rw [generate_of_configOk hc] at hgen
  have hr := Except.ok.inj hgen
  subst hr
  have hperm := sortTasks_perm (i.tasks.filter
    (fun t => decide (t.status = TaskStatus.active)))
  have hndS : ((sortTasks (i.tasks.filter
      (fun t => decide (t.status = TaskStatus.active)))).map Task.id).Nodup :=
    ((hperm.map Task.id).nodup_iff).mpr hnd
  have htmem : t ∈ sortTasks (i.tasks.filter
      (fun t => decide (t.status = TaskStatus.active))) :=
    hperm.mem_iff.mpr (List.mem_filter.mpr ⟨ht, by simp [hact]⟩)
  obtain ⟨_, _, _, gper⟩ := allocateAll_spec i hw
    (sortTasks (i.tasks.filter
      (fun t => decide (t.status = TaskStatus.active)))) []
  obtain ⟨s1, s2, s3⟩ := gper hndS t htmem
  exact ⟨fun hnone => s3 hnone, fun h hh => ⟨s1, s2⟩⟩

/-- Witness for C3: the example task's single generated block carries
exactly its required 60 minutes with no warning needed. -/
theorem allocation_bounded_with_warnings_witness :
    ((exInput.tasks.filter
      (fun t => decide (t.status = TaskStatus.active))).map Task.id).Nodup ∧
    (sumLens (exResult.blocks.filter
        (fun b => decide (b.taskId = exTask.id))) ≤ exTask.requiredMinutes ∧
      (sumLens (exResult.blocks.filter
          (fun b => decide (b.taskId = exTask.id))) = exTask.requiredMinutes ∨
        ∃ wn ∈ exResult.warnings, wn.taskId = exTask.id)) :=
  ⟨by decide,
   (allocation_bounded_with_warnings exInput exResult rfl (by decide)
     exTask (by simp [exInput]) rfl).2 1 rfl⟩

end BrainyBuddy
